import Mathlib

/-!
# Verification of the semver constraint algebra

Shallow embedding of the constraint-algebra engine of the `semver` package
(`constraints.go`), together with proofs checking the natural-language
specification against it.

The repository source available to us is `constraints.go` alone: the
collaborators it calls (`Version`, `rangeConstraint`, `unionConstraint`,
`areAdjacent`, `parseConstraint`, `rewriteRange`, the `constraintList` sort
order and the pairwise `Intersect`/`Union`/`MatchesAny` methods) live in
files that are not part of the provided source.  Those collaborators are
modelled from the specification; each such definition carries a doc comment
starting with `Modelled from the spec:`.  Everything translated directly
from `constraints.go` follows that file's control flow.

Naming map for the Go variants:
`any` ↦ `Constraint.any`, `none` ↦ `Constraint.none`,
`*Version` ↦ `Constraint.version`, `rangeConstraint` ↦ `Constraint.rangeC`,
`unionConstraint` ↦ `Constraint.unionC` (a list of `RealConstraint`, the
embedding of Go's `realConstraint` = `*Version` | `rangeConstraint`).
-/

namespace Semver

/-- Modelled from the spec: `Version` is an external, opaque, totally ordered,
equality-comparable value type (§2).  We model the numeric
`major.minor.patch` core, ordered lexicographically; pre-release and build
metadata are outside the model. -/
structure Ver where
  major : Nat
  minor : Nat
  patch : Nat
deriving DecidableEq, Repr

/-- Modelled from the spec: strict lexicographic order on versions
(`Version.LessThan`). -/
def Ver.ltb (a b : Ver) : Bool :=
  decide (a.major < b.major) ||
    (decide (a.major = b.major) &&
      (decide (a.minor < b.minor) ||
        (decide (a.minor = b.minor) && decide (a.patch < b.patch))))

/-- Modelled from the spec: a `Range` is a bounded interval over versions,
"a lower/upper bound pair (each bound inclusive or exclusive, or
unbounded)" (§3).  `Option.none` as a bound means unbounded.  This embeds
Go's `rangeConstraint`. -/
structure Rng where
  min : Option Ver
  max : Option Ver
  includeMin : Bool
  includeMax : Bool
deriving DecidableEq, Repr

/-- Embedding of Go's `realConstraint` interface: a `*Version` (Point) or a
`rangeConstraint` (Range). -/
inductive RealConstraint where
  | point (v : Ver)
  | rng (r : Rng)
deriving DecidableEq, Repr

/-- Embedding of Go's closed `Constraint` interface: exactly the five
variants `any`, `none`, `*Version`, `rangeConstraint`, `unionConstraint`. -/
inductive Constraint where
  | any
  | none
  | version (v : Ver)
  | rangeC (r : Rng)
  | unionC (ms : List RealConstraint)
deriving DecidableEq, Repr

/-- A `realConstraint` used as a `Constraint` (Go's interface upcast). -/
def RealConstraint.toConstraint : RealConstraint → Constraint
  | .point v => .version v
  | .rng r => .rangeC r

/-! ## Matching semantics

Modelled from the spec (§3, §4.4): each variant's meaning as a predicate
over versions.  The Go `Matches` method returns an explanatory error for a
non-match; we model only the satisfied/unsatisfied boolean. -/

/-- Does a lower bound (`b` = bound value, `i` = inclusive) admit `v`?
An absent bound admits everything. -/
def lbOK : Option Ver → Bool → Ver → Bool
  | Option.none, _, _ => true
  | some m, i, v => Ver.ltb m v || (i && decide (m = v))

/-- Does an upper bound admit `v`?  An absent bound admits everything. -/
def ubOK : Option Ver → Bool → Ver → Bool
  | Option.none, _, _ => true
  | some m, i, v => Ver.ltb v m || (i && decide (v = m))

/-- Modelled from the spec: a Range "matches all versions within a
lower/upper bound pair" (§3). -/
def Rng.matches (r : Rng) (v : Ver) : Bool :=
  lbOK r.min r.includeMin v && ubOK r.max r.includeMax v

def RealConstraint.matches : RealConstraint → Ver → Bool
  | .point w, v => decide (w = v)
  | .rng r, v => r.matches v

/-- Modelled from the spec: Universal matches every version, Empty matches
none, a Point matches exactly its version, a UnionSet matches a version iff
some member does (§3). -/
def Constraint.matches : Constraint → Ver → Bool
  | .any, _ => true
  | .none, _ => false
  | .version w, v => decide (w = v)
  | .rangeC r, v => r.matches v
  | .unionC ms, v => ms.any (fun m => m.matches v)

/-- Embedding of Go's `IsNone`: reports whether a constraint is the
`none` (Empty) value. -/
def IsNone : Constraint → Bool
  | .none => true
  | _ => false

/-! ## Well-formedness

The spec's data-model invariant (§3): "A Range's lower bound, if present,
is strictly less than its upper bound, if present". -/

def Rng.WF (r : Rng) : Bool :=
  match r.min, r.max with
  | some a, some b => Ver.ltb a b
  | _, _ => true

def RealConstraint.WF : RealConstraint → Bool
  | .point _ => true
  | .rng r => r.WF

def Constraint.WF : Constraint → Bool
  | .rangeC r => r.WF
  | .unionC ms => ms.all RealConstraint.WF
  | _ => true

/-! ## Bound combinators and the pairwise operations

All modelled from the spec (§4.2, §4.3): the pairwise `Intersect`,
`Union` and `MatchesAny` methods of the variants live in source files not
provided, so they are reconstructed from the spec's wording. -/

/-- The tighter (larger) of two lower bounds; ties combine inclusivities
conjunctively.  An absent bound is loosest. -/
def tightLB : Option Ver × Bool → Option Ver × Bool → Option Ver × Bool
  | (Option.none, _), b => b
  | a, (Option.none, _) => a
  | (some a, i), (some b, j) =>
    if Ver.ltb a b then (some b, j)
    else if Ver.ltb b a then (some a, i)
    else (some a, i && j)

/-- The tighter (smaller) of two upper bounds. -/
def tightUB : Option Ver × Bool → Option Ver × Bool → Option Ver × Bool
  | (Option.none, _), b => b
  | a, (Option.none, _) => a
  | (some a, i), (some b, j) =>
    if Ver.ltb a b then (some a, i)
    else if Ver.ltb b a then (some b, j)
    else (some a, i && j)

/-- The looser (smaller) of two lower bounds; ties combine inclusivities
disjunctively.  An absent bound is loosest. -/
def looseLB : Option Ver × Bool → Option Ver × Bool → Option Ver × Bool
  | (Option.none, i), _ => (Option.none, i)
  | _, (Option.none, i) => (Option.none, i)
  | (some a, i), (some b, j) =>
    if Ver.ltb a b then (some a, i)
    else if Ver.ltb b a then (some b, j)
    else (some a, i || j)

/-- The looser (larger) of two upper bounds. -/
def looseUB : Option Ver × Bool → Option Ver × Bool → Option Ver × Bool
  | (Option.none, i), _ => (Option.none, i)
  | _, (Option.none, i) => (Option.none, i)
  | (some a, i), (some b, j) =>
    if Ver.ltb a b then (some b, j)
    else if Ver.ltb b a then (some a, i)
    else (some a, i || j)

/-- Modelled from the spec: range construction reduces degenerate bound
pairs — "an inverted or zero-width non-point range is invalid and must
reduce to Empty at construction" (§3); a zero-width pair with both bounds
inclusive is exactly one version, i.e. a Point. -/
def mkRange (lb ub : Option Ver × Bool) : Constraint :=
  match lb, ub with
  | (some m, i), (some M, j) =>
    if Ver.ltb M m then .none
    else if m = M then (if i && j then .version m else .none)
    else .rangeC ⟨some m, some M, i, j⟩
  | _, _ => .rangeC ⟨lb.1, ub.1, lb.2, ub.2⟩

/-- Modelled from the spec: intersection of two Ranges is "the overlapping
sub-interval (tightest of the two lower bounds as new lower, tightest of
the two upper bounds as new upper), or Empty if the intervals do not
overlap" (§4.2). -/
def rangeIntersect (r1 r2 : Rng) : Constraint :=
  mkRange (tightLB (r1.min, r1.includeMin) (r2.min, r2.includeMin))
    (tightUB (r1.max, r1.includeMax) (r2.max, r2.includeMax))

/-- Modelled from the spec: `MatchesAny` "reports whether
`Intersection([a, b])` is non-Empty; it must be implemented consistently
with §4.2, not independently re-derived" (§4.4) — here for two Ranges, as
used by `Union`'s merge sweep. -/
def rngMatchesAny (r1 r2 : Rng) : Bool :=
  !(IsNone (rangeIntersect r1 r2))

/-- Modelled from the spec: two bounds are adjacent "when the upper bound
of one equals the lower bound of the other and at least one of the two
bounds at that shared value is inclusive" (§4.3).  The spec's second
clause (immediate successor/predecessor versions) is vacuous in the full
semantic-version ordering, which is dense — a pre-release of the larger
version lies strictly between any two distinct versions — so it is not
modelled.  As at its call site in the sorted merge sweep, the first
argument is the earlier range. -/
def areAdjacent (r1 r2 : Rng) : Bool :=
  match r1.max, r2.min with
  | some a, some b => decide (a = b) && (r1.includeMax || r2.includeMin)
  | _, _ => false

/-- Modelled from the spec: the merged Range of two overlapping or adjacent
Ranges — the hull taking the loosest bound on each side (§4.3). -/
def mergedRng (r1 r2 : Rng) : Rng :=
  let lb := looseLB (r1.min, r1.includeMin) (r2.min, r2.includeMin)
  let ub := looseUB (r1.max, r1.includeMax) (r2.max, r2.includeMax)
  ⟨lb.1, ub.1, lb.2, ub.2⟩

/-! ## Sort order of `constraintList` -/

/-- The sort key: "a Point's position is its own value; an unbounded-below
Range sorts first" (§4.3). -/
def lowerKey : RealConstraint → Option Ver
  | .point v => some v
  | .rng r => r.min

/-- Tie-break rank: a Point sorts before a Range at the same key (§9 leaves
the tie-break open and suggests this choice). -/
def rank : RealConstraint → Nat
  | .point _ => 0
  | .rng _ => 1

def keyLt : Option Ver → Option Ver → Bool
  | Option.none, Option.none => false
  | Option.none, some _ => true
  | some _, Option.none => false
  | some a, some b => Ver.ltb a b

/-- Modelled from the spec: the `constraintList` `Less` order — "sorted
ascending by effective lower bound" (§4.3) with the §9 tie-break. -/
def ltCL (a b : RealConstraint) : Bool :=
  keyLt (lowerKey a) (lowerKey b) ||
    (decide (lowerKey a = lowerKey b) && decide (rank a < rank b))

/-- The non-strict order fed to the sorting algorithm. -/
def leCL (a b : RealConstraint) : Prop := ltCL b a = false

instance : DecidableRel leCL :=
  fun a b => inferInstanceAs (Decidable (ltCL b a = false))

/-- Embedding of Go's `sort.Sort(real)`: some permutation of the input that
is sorted by the `constraintList` order; realized by insertion sort. -/
def sortCL (l : List RealConstraint) : List RealConstraint :=
  l.insertionSort leCL

/-! ## Pairwise union on ranges (the collaborator used by the sweep) -/

/-- Modelled from the spec: `rangeConstraint.Union` with a `*Version`
argument — "Range followed by Point where the point lies inside or
adjacent to the range: merge via the Range/Point union (produces a widened
Range)" (§4.3); otherwise the two form a two-member UnionSet in ascending
order. -/
def Rng.unionVer (r : Rng) (v : Ver) : Constraint :=
  if r.matches v then .rangeC r
  else if r.min = some v ∧ r.includeMin = false then
    .rangeC { r with includeMin := true }
  else if r.max = some v ∧ r.includeMax = false then
    .rangeC { r with includeMax := true }
  else
    match r.min with
    | some m =>
      if Ver.ltb v m then .unionC [.point v, .rng r]
      else .unionC [.rng r, .point v]
    | Option.none => .unionC [.rng r, .point v]

/-- Modelled from the spec: `rangeConstraint.Union` with a second
`rangeConstraint` — if the two "overlap or are adjacent ... their merged
Range; otherwise ... a separate member" (§4.3). -/
def Rng.unionRng (r1 r2 : Rng) : Constraint :=
  if rngMatchesAny r1 r2 || areAdjacent r1 r2 then
    .rangeC (mergedRng r1 r2)
  else if ltCL (.rng r2) (.rng r1) then .unionC [.rng r2, .rng r1]
  else .unionC [.rng r1, .rng r2]

/-! ## `Union` (translated from `constraints.go`, lines 191–294) -/

/-- The preliminary pass of `Union` (lines 206–228): skip `none`, collect
`*Version`/`rangeConstraint`, flatten `unionConstraint` members, and bail
out (`Option.none`) upon an `any`. -/
def collectRealU : List Constraint → Option (List RealConstraint)
  | [] => some []
  | c :: rest =>
    match c with
    | .any => Option.none
    | .none => collectRealU rest
    | .version v => (collectRealU rest).map (fun l => .point v :: l)
    | .rangeC r => (collectRealU rest).map (fun l => .rng r :: l)
    | .unionC ms => (collectRealU rest).map (fun l => ms ++ l)

/-- One step of the iterative merge of the sorted `constraintList`
(lines 236–288).  The accumulated `nuc` is inspected at its last element,
exactly as the Go loop does.  The catch-all arms of the inner matches are
unreachable for the modelled collaborators: there Go performs a type
assertion that the pairwise union result is a `realConstraint` resp. a
`unionConstraint`. -/
def sweepStep (nuc : List RealConstraint) (c : RealConstraint) : List RealConstraint :=
  match nuc.getLast? with
  | Option.none => nuc ++ [c]
  | some last =>
    match last, c with
    | .point lt, .point ct =>
      -- Two versions in a row; only append if they're not equal
      if lt = ct then nuc else nuc ++ [c]
    | .point _, .rng _ => nuc ++ [c]
    | .rng lt, .point ct =>
      match lt.unionVer ct with
      | .version w => nuc.dropLast ++ [.point w]
      | .rangeC r => nuc.dropLast ++ [.rng r]
      | .unionC ms => nuc.dropLast ++ ms
      | _ => nuc
    | .rng lt, .rng ct =>
      if rngMatchesAny lt ct || areAdjacent lt ct then
        match lt.unionRng ct with
        | .version w => nuc.dropLast ++ [.point w]
        | .rangeC r => nuc.dropLast ++ [.rng r]
        | _ => nuc
      else nuc ++ [c]

/-- `Union` (lines 191–294): zero inputs give `none`, one input is returned
unchanged; otherwise the preliminary pass bails out on `any`, the collected
list is sorted and swept, and a single survivor is returned unwrapped. -/
def Union (cg : List Constraint) : Constraint :=
  match cg with
  | [] => .none
  | [c] => c
  | _ =>
    match collectRealU cg with
    | Option.none => .any
    | some real =>
      match (sortCL real).foldl sweepStep [] with
      | [u] => u.toConstraint
      | us => .unionC us

/-! ## Pairwise intersection (the collaborator used by the fold) -/

/-- Modelled from the spec (§4.2): pairwise `Intersect` between two Points:
"Empty unless equal, else that Point.  Between Point and Range: the Point
if within bounds, else Empty.  Between two Ranges: the overlapping
sub-interval". -/
def RealConstraint.intersectReal : RealConstraint → RealConstraint → Constraint
  | .point v, .point w => if v = w then .version v else .none
  | .point v, .rng r => if r.matches v then .version v else .none
  | .rng r, .point v => if r.matches v then .version v else .none
  | .rng r1, .rng r2 => rangeIntersect r1 r2

/-- Modelled from the spec (§4.2): the pairwise `Intersect` method.
Empty is absorbing, Universal is an identity, and "UnionSet inputs are
flattened to their members before combination (distributing intersection
over union is handled by pairwise Intersect on individual Point/Range
variants)". -/
def intersectPair : Constraint → Constraint → Constraint
  | .none, _ => .none
  | _, .none => .none
  | .any, c => c
  | c, .any => c
  | .version v, .version w => if v = w then .version v else .none
  | .version v, .rangeC r => if r.matches v then .version v else .none
  | .rangeC r, .version v => if r.matches v then .version v else .none
  | .rangeC r1, .rangeC r2 => rangeIntersect r1 r2
  | .unionC ms, .version v =>
    Union (ms.map (fun m => m.intersectReal (.point v)))
  | .unionC ms, .rangeC r =>
    Union (ms.map (fun m => m.intersectReal (.rng r)))
  | .version v, .unionC ms =>
    Union (ms.map (fun m => RealConstraint.intersectReal (.point v) m))
  | .rangeC r, .unionC ms =>
    Union (ms.map (fun m => RealConstraint.intersectReal (.rng r) m))
  | .unionC ms, .unionC ns =>
    Union (ms.flatMap (fun m => ns.map (fun n => m.intersectReal n)))

/-! ## `Intersection` (translated from `constraints.go`, lines 138–183) -/

/-- The preliminary pass of `Intersection` (lines 153–168): skip `any`,
collect the rest, and return early (`Option.none`) upon a `none`. -/
def collectRealI : List Constraint → Option (List RealConstraint)
  | [] => some []
  | c :: rest =>
    match c with
    | .any => collectRealI rest
    | .none => Option.none
    | .version v => (collectRealI rest).map (fun l => .point v :: l)
    | .rangeC r => (collectRealI rest).map (fun l => .rng r :: l)
    | .unionC ms => (collectRealI rest).map (fun l => ms ++ l)

/-- The pairwise fold of `Intersection` (lines 174–180): intersect each
remaining constraint with the accumulator, short-circuiting to `none` the
moment the accumulator becomes `none`. -/
def foldIntersect (car : Constraint) : List Constraint → Constraint
  | [] => car
  | c :: cdr =>
    let car2 := intersectPair car c
    if IsNone car2 then .none else foldIntersect car2 cdr

/-- `Intersection` (lines 138–183): zero inputs give `none`, one input is
returned unchanged; otherwise a preliminary pass returns early on a `none`
input and builds a sorted `constraintList` that the subsequent pairwise
fold over the original input never consults. -/
def Intersection (cg : List Constraint) : Constraint :=
  match cg with
  | [] => .none
  | [c] => c
  | c0 :: c1 :: rest =>
    match collectRealI (c0 :: c1 :: rest) with
    | Option.none => .none
    | some real =>
      let _sorted := sortCL real
      foldIntersect c0 (c1 :: rest)

/-- The plain pairwise fold, following the spec's words for §4.2's general
case: "fold pairwise left-to-right using each pair's own `Intersect`
operation, short-circuiting to Empty the moment any partial result becomes
Empty" — with no preliminary pass and no auxiliary sorted list.  Used to
state the refinement claim about `Intersection`. -/
def IntersectionSpec (cg : List Constraint) : Constraint :=
  match cg with
  | [] => .none
  | [c] => c
  | c0 :: c1 :: rest => foldIntersect c0 (c1 :: rest)

/-! ## The parsing pipeline (`NewConstraint`, lines 97–130)

The Token Parser and Range Rewriter are external collaborators (spec §1,
§2); they are modelled from the spec just far enough to be executable, and
the orchestration claims are parametric in their exact behavior. -/

/-- Structural splitting of a character list on a non-empty separator,
with the semantics of Go's `strings.Split`; the fuel argument makes the
recursion structural so that concrete inputs evaluate inside the kernel. -/
def splitAux (sep : List Char) (fuel : Nat) (l : List Char) (acc : List Char) :
    List (List Char) :=
  match fuel with
  | 0 => [acc.reverse]
  | fuel + 1 =>
    match l with
    | [] => [acc.reverse]
    | c :: rest =>
      if sep.isPrefixOf (c :: rest) && decide (0 < sep.length) then
        acc.reverse :: splitAux sep fuel ((c :: rest).drop sep.length) []
      else
        splitAux sep fuel rest (c :: acc)

/-- `strings.Split`: split a string on every occurrence of a separator. -/
def strSplit (s sep : String) : List String :=
  (splitAux sep.data (s.data.length + 1) s.data []).map String.mk

/-- `strings.TrimSpace`, modelled for the space character. -/
def strTrim (s : String) : String :=
  String.mk (((s.data.dropWhile (fun c => c = ' ')).reverse.dropWhile
    (fun c => c = ' ')).reverse)

/-- The numeric value of a non-empty digit sequence, if it is one. -/
def digitsToNat : List Char → Option Nat
  | [] => Option.none
  | l => l.foldl
      (fun acc c =>
        match acc with
        | Option.none => Option.none
        | some n =>
          if '0' ≤ c ∧ c ≤ '9' then some (n * 10 + (c.toNat - '0'.toNat))
          else Option.none)
      (some 0)

/-- Modelled from the spec: parse a version pattern — "optional `v` prefix,
one to three dot-separated segments" (§4.1); wildcard segments,
pre-release and build-metadata suffixes are outside the model. -/
def parseVer (s : String) : Option Ver :=
  let t := if ("v".data).isPrefixOf s.data then s.data.drop 1 else s.data
  match (splitAux ".".data (t.length + 1) t []).map digitsToNat with
  | [some a] => some ⟨a, 0, 0⟩
  | [some a, some b] => some ⟨a, b, 0⟩
  | [some a, some b, some c] => some ⟨a, b, c⟩
  | _ => Option.none

/-- The comparator operators of the grammar (§4.1), longest first so that a
prefix scan finds the longest match. -/
def opStrings : List String :=
  [">=", "=>", "<=", "=<", "!=", "~>", ">", "<", "=", "~", "^", ""]

/-- Modelled from the spec: the constraint denoted by one operator applied
to one version (§4.1, §6).  Tilde and caret take their simple
`major.minor.patch` meaning; `!=` is everything but the point. -/
def constraintForOp (op : String) (v : Ver) : Constraint :=
  match op with
  | ">" => .rangeC ⟨some v, Option.none, false, false⟩
  | ">=" => .rangeC ⟨some v, Option.none, true, false⟩
  | "=>" => .rangeC ⟨some v, Option.none, true, false⟩
  | "<" => .rangeC ⟨Option.none, some v, false, false⟩
  | "<=" => .rangeC ⟨Option.none, some v, false, true⟩
  | "=<" => .rangeC ⟨Option.none, some v, false, true⟩
  | "!=" => .unionC [.rng ⟨Option.none, some v, false, false⟩,
      .rng ⟨some v, Option.none, false, false⟩]
  | "~" => .rangeC ⟨some v, some ⟨v.major, v.minor + 1, 0⟩, true, false⟩
  | "~>" => .rangeC ⟨some v, some ⟨v.major, v.minor + 1, 0⟩, true, false⟩
  | "^" => .rangeC ⟨some v, some ⟨v.major + 1, 0, 0⟩, true, false⟩
  | _ => .version v

/-- Modelled from the spec: the Token Parser "converts one trimmed
comparator-and-version string into a Point or Range variant, or an error"
(§2), the error "identifying the offending token" (§4.1). -/
def parseConstraint (s : String) : Except String Constraint :=
  let t := strTrim s
  match opStrings.find? (fun op => op.data.isPrefixOf t.data) with
  | Option.none => .error ("Malformed constraint: " ++ s)
  | some op =>
    match parseVer (strTrim (String.mk (t.data.drop op.data.length))) with
    | Option.none => .error ("Malformed constraint: " ++ s)
    | some v => .ok (constraintForOp op v)

/-- Modelled from the spec: the Range Rewriter converts every
`"<version> - <version>"` substring into an equivalent comparator
conjunction `">= lower, <= upper"` before splitting (§4.1, §6); modelled
for one hyphen range with single spaces around the hyphen. -/
def rewriteRange (s : String) : String :=
  match strSplit s " - " with
  | [a, b] => ">= " ++ a ++ ", <= " ++ b
  | _ => s

/-- The memoization cache, Go's `map[string]Constraint` made explicit
(spec §9 recommends exactly this). -/
def Cache := List (String × Constraint)

def lookupCache (cache : Cache) (s : String) : Option Constraint :=
  match cache.find? (fun p => decide (p.1 = s)) with
  | some p => some p.2
  | Option.none => Option.none

/-- Go's `cacheConstraints` flag (line 87), true by default. -/
def cacheConstraints : Bool := true

/-- The inner loop of `NewConstraint` (lines 113–120): parse the
AND-members in order, aborting on the first error. -/
def parseAll : List String → Except String (List Constraint)
  | [] => .ok []
  | s :: rest =>
    match parseConstraint s with
    | .error e => .error e
    | .ok pc =>
      match parseAll rest with
      | .error e => .error e
      | .ok cs => .ok (pc :: cs)

/-- The outer loop of `NewConstraint` (lines 110–122): split each OR-group
on `","`, parse its members, and fold them with `Intersection`. -/
def buildOrs : List String → Except String (List Constraint)
  | [] => .ok []
  | g :: rest =>
    match parseAll (strSplit g ",") with
    | .error e => .error e
    | .ok result =>
      match buildOrs rest with
      | .error e => .error e
      | .ok ors => .ok (Intersection result :: ors)

/-- `NewConstraint` (lines 97–130), with the process-wide cache passed as
explicit state: a cache hit returns the memoized constraint; otherwise the
input is rewritten, split on `"||"`, each OR-group is parsed and
intersected, the groups are folded with `Union`, and the result is cached
under the original input string.  A parse error is returned with the cache
unchanged. -/
def NewConstraint (s : String) (cache : Cache) :
    Except String Constraint × Cache :=
  match (if cacheConstraints then lookupCache cache s else Option.none) with
  | some final => (.ok final, cache)
  | Option.none =>
    let c := rewriteRange s
    match buildOrs (strSplit c "||") with
    | .error e => (.error e, cache)
    | .ok ors =>
      let final := Union ors
      (.ok final, if cacheConstraints then (s, final) :: cache else cache)

/-! ## Raw interface values and the panic branches

Go's `Constraint` is an interface; the `default:` arms of the type switches
in `Intersection` (line 166) and `Union` (line 226) invoke
`panic("unknown constraint type")` for an interface value outside the five
variants.  To state the unreachability claim we model raw interface values
as either one of the five variants or a foreign implementation, and the two
preliminary passes over them with the panic arm made explicit as an
`Except.error`. -/

inductive GoVal where
  | known (c : Constraint)
  | foreign
deriving DecidableEq

/-- The preliminary pass of `Intersection` (lines 153–168) over raw
interface values; `.error` is the `default:` panic arm. -/
def intersectionPassGo : List GoVal → Except String (Option (List RealConstraint))
  | [] => .ok (some [])
  | .known .any :: rest => intersectionPassGo rest
  | .known .none :: _ => .ok Option.none
  | .known (.version v) :: rest =>
    (intersectionPassGo rest).map (Option.map (fun l => .point v :: l))
  | .known (.rangeC r) :: rest =>
    (intersectionPassGo rest).map (Option.map (fun l => .rng r :: l))
  | .known (.unionC ms) :: rest =>
    (intersectionPassGo rest).map (Option.map (fun l => ms ++ l))
  | .foreign :: _ => .error "unknown constraint type"

/-- The preliminary pass of `Union` (lines 206–228) over raw interface
values; `.error` is the `default:` panic arm. -/
def unionPassGo : List GoVal → Except String (Option (List RealConstraint))
  | [] => .ok (some [])
  | .known .any :: _ => .ok Option.none
  | .known .none :: rest => unionPassGo rest
  | .known (.version v) :: rest =>
    (unionPassGo rest).map (Option.map (fun l => .point v :: l))
  | .known (.rangeC r) :: rest =>
    (unionPassGo rest).map (Option.map (fun l => .rng r :: l))
  | .known (.unionC ms) :: rest =>
    (unionPassGo rest).map (Option.map (fun l => ms ++ l))
  | .foreign :: _ => .error "unknown constraint type"

-- concrete sanity checks (claim C1's example)
def v100 : Ver := ⟨1, 0, 0⟩
def v200 : Ver := ⟨2, 0, 0⟩
def v300 : Ver := ⟨3, 0, 0⟩

/-! ## Helper lemmas -/

lemma Ver.eq_iff {a b : Ver} :
    a = b ↔ a.major = b.major ∧ a.minor = b.minor ∧ a.patch = b.patch := by
  cases a; cases b; simp

lemma Ver.ltb_iff {a b : Ver} :
    Ver.ltb a b = true ↔
      a.major < b.major ∨ (a.major = b.major ∧
        (a.minor < b.minor ∨ (a.minor = b.minor ∧ a.patch < b.patch))) := by
  simp [Ver.ltb]

lemma Ver.ltb_irrefl (a : Ver) : Ver.ltb a a = false := by
  simp [Ver.ltb]

lemma Ver.ltb_trans {a b c : Ver} (h1 : Ver.ltb a b = true)
    (h2 : Ver.ltb b c = true) : Ver.ltb a c = true := by
  rw [Ver.ltb_iff] at h1 h2 ⊢
  omega

lemma Ver.ltb_asymm {a b : Ver} (h : Ver.ltb a b = true) :
    Ver.ltb b a = false := by
  rw [Ver.ltb_iff] at h
  rw [← Bool.not_eq_true, Ver.ltb_iff]
  omega

lemma Ver.ltb_total {a b : Ver} (h : Ver.ltb a b = false)
    (h2 : Ver.ltb b a = false) : a = b := by
  rw [← Bool.not_eq_true, Ver.ltb_iff] at h h2
  rw [Ver.eq_iff]
  omega

lemma collectRealI_of_none_mem :
    ∀ cg : List Constraint, Constraint.none ∈ cg → collectRealI cg = Option.none := by
  intro cg h
  induction cg with
  | nil => simp at h
  | cons c rest ih =>
    rcases List.mem_cons.mp h with rfl | hr
    · rfl
    · cases c <;> simp [collectRealI, ih hr]

lemma collectRealI_none_imp_mem :
    ∀ cg : List Constraint, collectRealI cg = Option.none → Constraint.none ∈ cg := by
  intro cg h
  induction cg with
  | nil => simp [collectRealI] at h
  | cons c rest ih =>
    cases c <;> simp [collectRealI] at h <;> simp_all

lemma collectRealU_of_any_mem :
    ∀ cg : List Constraint, Constraint.any ∈ cg → collectRealU cg = Option.none := by
  intro cg h
  induction cg with
  | nil => simp at h
  | cons c rest ih =>
    rcases List.mem_cons.mp h with rfl | hr
    · rfl
    · cases c <;> simp [collectRealU, ih hr]

lemma intersectPair_none_right : ∀ c : Constraint, intersectPair c .none = .none := by
  intro c; cases c <;> rfl

lemma intersectPair_none_left : ∀ c : Constraint, intersectPair .none c = .none := by
  intro c; cases c <;> rfl

lemma foldIntersect_of_none_mem :
    ∀ (cdr : List Constraint) (car : Constraint), Constraint.none ∈ cdr →
      foldIntersect car cdr = .none := by
  intro cdr
  induction cdr with
  | nil => intro car h; simp at h
  | cons c rest ih =>
    intro car h
    rcases List.mem_cons.mp h with rfl | hr
    · simp [foldIntersect, intersectPair_none_right, IsNone]
    · show (if IsNone (intersectPair car c) then Constraint.none
        else foldIntersect (intersectPair car c) rest) = Constraint.none
      split
      · rfl
      · exact ih _ hr

/-! ### Bound logic for the semantic soundness proofs -/

lemma lbOK_some_iff {a : Ver} {i : Bool} {v : Ver} :
    lbOK (some a) i v = true ↔ (Ver.ltb a v = true ∨ (i = true ∧ a = v)) := by
  cases i <;> simp [lbOK]

lemma ubOK_some_iff {a : Ver} {i : Bool} {v : Ver} :
    ubOK (some a) i v = true ↔ (Ver.ltb v a = true ∨ (i = true ∧ v = a)) := by
  cases i <;> simp [ubOK]

lemma tightLB_true_iff (p q : Option Ver × Bool) (v : Ver) :
    lbOK (tightLB p q).1 (tightLB p q).2 v = true ↔
      (lbOK p.1 p.2 v = true ∧ lbOK q.1 q.2 v = true) := by
  obtain ⟨pm, pi⟩ := p
  obtain ⟨qm, qi⟩ := q
  cases pm with
  | none => simp [tightLB, lbOK]
  | some a =>
    cases qm with
    | none => simp [tightLB, lbOK]
    | some b =>
      simp only [tightLB]
      by_cases hab : Ver.ltb a b = true
      · simp only [hab, if_true]
        constructor
        · intro h
          refine ⟨?_, h⟩
          rcases lbOK_some_iff.mp h with h' | ⟨_, rfl⟩
          · exact lbOK_some_iff.mpr (Or.inl (Ver.ltb_trans hab h'))
          · exact lbOK_some_iff.mpr (Or.inl hab)
        · exact fun h => h.2
      · by_cases hba : Ver.ltb b a = true
        · simp only [hab, hba, if_false, if_true]
          constructor
          · intro h
            refine ⟨h, ?_⟩
            rcases lbOK_some_iff.mp h with h' | ⟨_, rfl⟩
            · exact lbOK_some_iff.mpr (Or.inl (Ver.ltb_trans hba h'))
            · exact lbOK_some_iff.mpr (Or.inl hba)
          · exact fun h => h.1
        · have hab' : Ver.ltb a b = false := by
            rw [← Bool.not_eq_true]; exact hab
          have hba' : Ver.ltb b a = false := by
            rw [← Bool.not_eq_true]; exact hba
          obtain rfl := Ver.ltb_total hab' hba'
          simp only [if_neg hab]
          rw [lbOK_some_iff, lbOK_some_iff, lbOK_some_iff]
          constructor
          · rintro (h | ⟨hij, rfl⟩)
            · exact ⟨Or.inl h, Or.inl h⟩
            · rw [Bool.and_eq_true] at hij
              exact ⟨Or.inr ⟨hij.1, rfl⟩, Or.inr ⟨hij.2, rfl⟩⟩
          · rintro ⟨h1 | ⟨hi, rfl⟩, h2⟩
            · exact Or.inl h1
            · rcases h2 with h2 | ⟨hj, _⟩
              · exact Or.inl h2
              · exact Or.inr ⟨by rw [hi, hj]; rfl, rfl⟩

lemma tightUB_true_iff (p q : Option Ver × Bool) (v : Ver) :
    ubOK (tightUB p q).1 (tightUB p q).2 v = true ↔
      (ubOK p.1 p.2 v = true ∧ ubOK q.1 q.2 v = true) := by
  obtain ⟨pm, pi⟩ := p
  obtain ⟨qm, qi⟩ := q
  cases pm with
  | none => simp [tightUB, ubOK]
  | some a =>
    cases qm with
    | none => simp [tightUB, ubOK]
    | some b =>
      simp only [tightUB]
      by_cases hab : Ver.ltb a b = true
      · simp only [hab, if_true]
        constructor
        · intro h
          refine ⟨h, ?_⟩
          rcases ubOK_some_iff.mp h with h' | ⟨_, rfl⟩
          · exact ubOK_some_iff.mpr (Or.inl (Ver.ltb_trans h' hab))
          · exact ubOK_some_iff.mpr (Or.inl hab)
        · exact fun h => h.1
      · by_cases hba : Ver.ltb b a = true
        · simp only [hab, hba, if_false, if_true]
          constructor
          · intro h
            refine ⟨?_, h⟩
            rcases ubOK_some_iff.mp h with h' | ⟨_, rfl⟩
            · exact ubOK_some_iff.mpr (Or.inl (Ver.ltb_trans h' hba))
            · exact ubOK_some_iff.mpr (Or.inl hba)
          · exact fun h => h.2
        · have hab' : Ver.ltb a b = false := by
            rw [← Bool.not_eq_true]; exact hab
          have hba' : Ver.ltb b a = false := by
            rw [← Bool.not_eq_true]; exact hba
          obtain rfl := Ver.ltb_total hab' hba'
          simp only [if_neg hab]
          rw [ubOK_some_iff, ubOK_some_iff, ubOK_some_iff]
          constructor
          · rintro (h | ⟨hij, rfl⟩)
            · exact ⟨Or.inl h, Or.inl h⟩
            · rw [Bool.and_eq_true] at hij
              exact ⟨Or.inr ⟨hij.1, rfl⟩, Or.inr ⟨hij.2, rfl⟩⟩
          · rintro ⟨h1 | ⟨hi, rfl⟩, h2⟩
            · exact Or.inl h1
            · rcases h2 with h2 | ⟨hj, _⟩
              · exact Or.inl h2
              · exact Or.inr ⟨by rw [hi, hj]; rfl, rfl⟩

lemma looseLB_true_iff (p q : Option Ver × Bool) (v : Ver) :
    lbOK (looseLB p q).1 (looseLB p q).2 v = true ↔
      (lbOK p.1 p.2 v = true ∨ lbOK q.1 q.2 v = true) := by
  obtain ⟨pm, pi⟩ := p
  obtain ⟨qm, qi⟩ := q
  cases pm with
  | none => simp [looseLB, lbOK]
  | some a =>
    cases qm with
    | none => simp [looseLB, lbOK]
    | some b =>
      simp only [looseLB]
      by_cases hab : Ver.ltb a b = true
      · simp only [hab, if_true]
        constructor
        · exact fun h => Or.inl h
        · rintro (h | h)
          · exact h
          · rcases lbOK_some_iff.mp h with h' | ⟨_, rfl⟩
            · exact lbOK_some_iff.mpr (Or.inl (Ver.ltb_trans hab h'))
            · exact lbOK_some_iff.mpr (Or.inl hab)
      · by_cases hba : Ver.ltb b a = true
        · simp only [hab, hba, if_false, if_true]
          constructor
          · exact fun h => Or.inr h
          · rintro (h | h)
            · rcases lbOK_some_iff.mp h with h' | ⟨_, rfl⟩
              · exact lbOK_some_iff.mpr (Or.inl (Ver.ltb_trans hba h'))
              · exact lbOK_some_iff.mpr (Or.inl hba)
            · exact h
        · have hab' : Ver.ltb a b = false := by
            rw [← Bool.not_eq_true]; exact hab
          have hba' : Ver.ltb b a = false := by
            rw [← Bool.not_eq_true]; exact hba
          obtain rfl := Ver.ltb_total hab' hba'
          simp only [if_neg hab]
          rw [lbOK_some_iff, lbOK_some_iff, lbOK_some_iff]
          constructor
          · rintro (h | ⟨hij, rfl⟩)
            · exact Or.inl (Or.inl h)
            · rw [Bool.or_eq_true] at hij
              rcases hij with hi | hj
              · exact Or.inl (Or.inr ⟨hi, rfl⟩)
              · exact Or.inr (Or.inr ⟨hj, rfl⟩)
          · rintro ((h | ⟨hi, rfl⟩) | (h | ⟨hj, rfl⟩))
            · exact Or.inl h
            · exact Or.inr ⟨by rw [hi]; rfl, rfl⟩
            · exact Or.inl h
            · exact Or.inr ⟨by rw [hj]; simp, rfl⟩

lemma looseUB_true_iff (p q : Option Ver × Bool) (v : Ver) :
    ubOK (looseUB p q).1 (looseUB p q).2 v = true ↔
      (ubOK p.1 p.2 v = true ∨ ubOK q.1 q.2 v = true) := by
  obtain ⟨pm, pi⟩ := p
  obtain ⟨qm, qi⟩ := q
  cases pm with
  | none => simp [looseUB, ubOK]
  | some a =>
    cases qm with
    | none => simp [looseUB, ubOK]
    | some b =>
      simp only [looseUB]
      by_cases hab : Ver.ltb a b = true
      · simp only [hab, if_true]
        constructor
        · exact fun h => Or.inr h
        · rintro (h | h)
          · rcases ubOK_some_iff.mp h with h' | ⟨_, rfl⟩
            · exact ubOK_some_iff.mpr (Or.inl (Ver.ltb_trans h' hab))
            · exact ubOK_some_iff.mpr (Or.inl hab)
          · exact h
      · by_cases hba : Ver.ltb b a = true
        · simp only [hab, hba, if_false, if_true]
          constructor
          · exact fun h => Or.inl h
          · rintro (h | h)
            · exact h
            · rcases ubOK_some_iff.mp h with h' | ⟨_, rfl⟩
              · exact ubOK_some_iff.mpr (Or.inl (Ver.ltb_trans h' hba))
              · exact ubOK_some_iff.mpr (Or.inl hba)
        · have hab' : Ver.ltb a b = false := by
            rw [← Bool.not_eq_true]; exact hab
          have hba' : Ver.ltb b a = false := by
            rw [← Bool.not_eq_true]; exact hba
          obtain rfl := Ver.ltb_total hab' hba'
          simp only [if_neg hab]
          rw [ubOK_some_iff, ubOK_some_iff, ubOK_some_iff]
          constructor
          · rintro (h | ⟨hij, rfl⟩)
            · exact Or.inl (Or.inl h)
            · rw [Bool.or_eq_true] at hij
              rcases hij with hi | hj
              · exact Or.inl (Or.inr ⟨hi, rfl⟩)
              · exact Or.inr (Or.inr ⟨hj, rfl⟩)
          · rintro ((h | ⟨hi, rfl⟩) | (h | ⟨hj, rfl⟩))
            · exact Or.inl h
            · exact Or.inr ⟨by rw [hi]; rfl, rfl⟩
            · exact Or.inl h
            · exact Or.inr ⟨by rw [hj]; simp, rfl⟩

lemma tightLB_ok (p q : Option Ver × Bool) (v : Ver) :
    lbOK (tightLB p q).1 (tightLB p q).2 v =
      (lbOK p.1 p.2 v && lbOK q.1 q.2 v) := by
  by_cases h : lbOK (tightLB p q).1 (tightLB p q).2 v = true
  · obtain ⟨h1, h2⟩ := (tightLB_true_iff p q v).mp h
    rw [h, h1, h2]; rfl
  · rw [Bool.not_eq_true] at h
    rw [h]
    cases h1 : lbOK p.1 p.2 v <;> cases h2 : lbOK q.1 q.2 v <;> try rfl
    exact absurd ((tightLB_true_iff p q v).mpr ⟨h1, h2⟩) (by rw [h]; simp)

lemma tightUB_ok (p q : Option Ver × Bool) (v : Ver) :
    ubOK (tightUB p q).1 (tightUB p q).2 v =
      (ubOK p.1 p.2 v && ubOK q.1 q.2 v) := by
  by_cases h : ubOK (tightUB p q).1 (tightUB p q).2 v = true
  · obtain ⟨h1, h2⟩ := (tightUB_true_iff p q v).mp h
    rw [h, h1, h2]; rfl
  · rw [Bool.not_eq_true] at h
    rw [h]
    cases h1 : ubOK p.1 p.2 v <;> cases h2 : ubOK q.1 q.2 v <;> try rfl
    exact absurd ((tightUB_true_iff p q v).mpr ⟨h1, h2⟩) (by rw [h]; simp)

lemma looseLB_ok (p q : Option Ver × Bool) (v : Ver) :
    lbOK (looseLB p q).1 (looseLB p q).2 v =
      (lbOK p.1 p.2 v || lbOK q.1 q.2 v) := by
  by_cases h : lbOK (looseLB p q).1 (looseLB p q).2 v = true
  · rw [h]; symm; rw [Bool.or_eq_true]
    rcases (looseLB_true_iff p q v).mp h with h1 | h2
    · exact Or.inl h1
    · exact Or.inr h2
  · rw [Bool.not_eq_true] at h
    rw [h]
    cases h1 : lbOK p.1 p.2 v
    · cases h2 : lbOK q.1 q.2 v
      · rfl
      · exact absurd ((looseLB_true_iff p q v).mpr (Or.inr h2)) (by rw [h]; simp)
    · exact absurd ((looseLB_true_iff p q v).mpr (Or.inl h1)) (by rw [h]; simp)

lemma looseUB_ok (p q : Option Ver × Bool) (v : Ver) :
    ubOK (looseUB p q).1 (looseUB p q).2 v =
      (ubOK p.1 p.2 v || ubOK q.1 q.2 v) := by
  by_cases h : ubOK (looseUB p q).1 (looseUB p q).2 v = true
  · rw [h]; symm; rw [Bool.or_eq_true]
    rcases (looseUB_true_iff p q v).mp h with h1 | h2
    · exact Or.inl h1
    · exact Or.inr h2
  · rw [Bool.not_eq_true] at h
    rw [h]
    cases h1 : ubOK p.1 p.2 v
    · cases h2 : ubOK q.1 q.2 v
      · rfl
      · exact absurd ((looseUB_true_iff p q v).mpr (Or.inr h2)) (by rw [h]; simp)
    · exact absurd ((looseUB_true_iff p q v).mpr (Or.inl h1)) (by rw [h]; simp)

lemma mkRange_matches (lb ub : Option Ver × Bool) (v : Ver) :
    (mkRange lb ub).matches v = (lbOK lb.1 lb.2 v && ubOK ub.1 ub.2 v) := by
  obtain ⟨lm, li⟩ := lb
  obtain ⟨um, ui⟩ := ub
  cases lm with
  | none => cases um <;> simp [mkRange, Constraint.matches, Rng.matches]
  | some m =>
    cases um with
    | none => simp [mkRange, Constraint.matches, Rng.matches]
    | some M =>
      simp only [mkRange]
      split_ifs with h1 h2 h3
      · -- inverted bounds: the result is Empty and no version fits
        simp only [Constraint.matches]
        cases hl : lbOK (some m) li v <;> cases hu : ubOK (some M) ui v <;> try rfl
        exfalso
        rcases lbOK_some_iff.mp hl with h4 | ⟨_, h4⟩ <;>
          rcases ubOK_some_iff.mp hu with h5 | ⟨_, h5⟩ <;>
          subst_vars <;> rw [Ver.ltb_iff] at * <;> omega
      · -- zero width, both bounds inclusive: the result is the Point
        subst h2
        rw [Bool.and_eq_true] at h3
        obtain ⟨rfl, rfl⟩ := h3
        simp only [Constraint.matches, lbOK, ubOK, Bool.true_and]
        by_cases hv : m = v
        · subst hv
          simp [Ver.ltb_irrefl]
        · have hv' : ¬v = m := fun hc => hv hc.symm
          simp only [decide_eq_false hv, decide_eq_false hv', Bool.or_false]
          cases h4 : Ver.ltb m v
          · simp
          · simp [Ver.ltb_asymm h4]
      · -- zero width, not both inclusive: the result is Empty
        subst h2
        simp only [Constraint.matches]
        cases hl : lbOK (some m) li v <;> cases hu : ubOK (some m) ui v <;> try rfl
        exfalso
        rcases lbOK_some_iff.mp hl with h4 | ⟨h4, h4e⟩ <;>
          rcases ubOK_some_iff.mp hu with h5 | ⟨h5, h5e⟩
        · rw [Ver.ltb_iff] at *; omega
        · subst h5e; rw [Ver.ltb_iff] at *; omega
        · subst h4e; rw [Ver.ltb_iff] at *; omega
        · subst h4e
          rw [h4, h5] at h3
          simp at h3
      · -- a genuine range
        simp [Constraint.matches, Rng.matches]

lemma Ver.ltb_false_iff {a b : Ver} :
    Ver.ltb a b = false ↔
      ¬(a.major < b.major ∨ (a.major = b.major ∧
        (a.minor < b.minor ∨ (a.minor = b.minor ∧ a.patch < b.patch)))) := by
  rw [← Bool.not_eq_true, Ver.ltb_iff]

lemma lbOK_false_iff {a : Ver} {i : Bool} {v : Ver} :
    lbOK (some a) i v = false ↔
      (Ver.ltb a v = false ∧ (i = true → ¬a = v)) := by
  cases i <;> simp [lbOK]

lemma ubOK_false_iff {a : Ver} {i : Bool} {v : Ver} :
    ubOK (some a) i v = false ↔
      (Ver.ltb v a = false ∧ (i = true → ¬v = a)) := by
  cases i <;> simp [ubOK]

lemma IsNone_iff {c : Constraint} : IsNone c = true ↔ c = .none := by
  cases c <;> simp [IsNone]

lemma toConstraint_matches (u : RealConstraint) (v : Ver) :
    u.toConstraint.matches v = u.matches v := by
  cases u <;> rfl

lemma toConstraint_WF (u : RealConstraint) : u.toConstraint.WF = u.WF := by
  cases u <;> rfl

lemma rangeIntersect_matches (r1 r2 : Rng) (v : Ver) :
    (rangeIntersect r1 r2).matches v = (r1.matches v && r2.matches v) := by
  unfold rangeIntersect
  rw [mkRange_matches, tightLB_ok, tightUB_ok]
  simp only [Rng.matches]
  cases h1 : lbOK r1.min r1.includeMin v <;>
    cases h2 : ubOK r1.max r1.includeMax v <;>
    cases h3 : lbOK r2.min r2.includeMin v <;>
    cases h4 : ubOK r2.max r2.includeMax v <;> rfl

lemma mkRange_WF (lb ub : Option Ver × Bool) : (mkRange lb ub).WF = true := by
  obtain ⟨lm, li⟩ := lb
  obtain ⟨um, ui⟩ := ub
  cases lm with
  | none => cases um <;> rfl
  | some m =>
    cases um with
    | none => rfl
    | some M =>
      simp only [mkRange]
      split_ifs with h1 h2 h3 <;> try rfl
      show Rng.WF ⟨some m, some M, li, ui⟩ = true
      simp only [Rng.WF]
      cases h4 : Ver.ltb m M
      · exact absurd
          (Ver.ltb_total h4 (by rw [← Bool.not_eq_true]; exact h1)) h2
      · rfl

lemma rangeIntersect_WF (r1 r2 : Rng) : (rangeIntersect r1 r2).WF = true :=
  mkRange_WF _ _

lemma tightLB_some_snd (p : Option Ver × Bool) (A2 : Ver) (p2 : Bool) :
    ∃ L fL, tightLB p (some A2, p2) = (some L, fL) ∧ Ver.ltb L A2 = false := by
  obtain ⟨pm, pi⟩ := p
  cases pm with
  | none => exact ⟨A2, p2, rfl, Ver.ltb_irrefl A2⟩
  | some A1 =>
    simp only [tightLB]
    by_cases h : Ver.ltb A1 A2 = true
    · exact ⟨A2, p2, by rw [if_pos h], Ver.ltb_irrefl A2⟩
    · by_cases h2 : Ver.ltb A2 A1 = true
      · exact ⟨A1, pi, by rw [if_neg h, if_pos h2], Ver.ltb_asymm h2⟩
      · exact ⟨A1, pi && p2, by rw [if_neg h, if_neg h2],
          by rw [← Bool.not_eq_true]; exact h⟩

lemma tightLB_some_fst (A1 : Ver) (p1 : Bool) (q : Option Ver × Bool) :
    ∃ L fL, tightLB (some A1, p1) q = (some L, fL) ∧ Ver.ltb L A1 = false := by
  obtain ⟨qm, qi⟩ := q
  cases qm with
  | none => exact ⟨A1, p1, rfl, Ver.ltb_irrefl A1⟩
  | some A2 =>
    simp only [tightLB]
    by_cases h : Ver.ltb A1 A2 = true
    · exact ⟨A2, qi, by rw [if_pos h], Ver.ltb_asymm h⟩
    · by_cases h2 : Ver.ltb A2 A1 = true
      · exact ⟨A1, p1, by rw [if_neg h, if_pos h2], Ver.ltb_irrefl A1⟩
      · exact ⟨A1, p1 && qi, by rw [if_neg h, if_neg h2], Ver.ltb_irrefl A1⟩

lemma tightUB_some_fst (B1 : Ver) (q1 : Bool) (q : Option Ver × Bool) :
    ∃ U fU, tightUB (some B1, q1) q = (some U, fU) ∧ Ver.ltb B1 U = false := by
  obtain ⟨qm, qi⟩ := q
  cases qm with
  | none => exact ⟨B1, q1, rfl, Ver.ltb_irrefl B1⟩
  | some B2 =>
    simp only [tightUB]
    by_cases h : Ver.ltb B1 B2 = true
    · exact ⟨B1, q1, by rw [if_pos h], Ver.ltb_irrefl B1⟩
    · by_cases h2 : Ver.ltb B2 B1 = true
      · exact ⟨B2, qi, by rw [if_neg h, if_pos h2],
          by rw [← Bool.not_eq_true]; exact h⟩
      · exact ⟨B1, q1 && qi, by rw [if_neg h, if_neg h2], Ver.ltb_irrefl B1⟩

lemma tightUB_some_snd (p : Option Ver × Bool) (B2 : Ver) (q2 : Bool) :
    ∃ U fU, tightUB p (some B2, q2) = (some U, fU) ∧ Ver.ltb B2 U = false := by
  obtain ⟨pm, pi⟩ := p
  cases pm with
  | none => exact ⟨B2, q2, rfl, Ver.ltb_irrefl B2⟩
  | some B1 =>
    simp only [tightUB]
    by_cases h : Ver.ltb B1 B2 = true
    · exact ⟨B1, pi, by rw [if_pos h], Ver.ltb_asymm h⟩
    · by_cases h2 : Ver.ltb B2 B1 = true
      · exact ⟨B2, q2, by rw [if_neg h, if_pos h2], Ver.ltb_irrefl B2⟩
      · exact ⟨B1, pi && q2, by rw [if_neg h, if_neg h2],
          by rw [← Bool.not_eq_true]; exact h2⟩

/-- If the two ranges have a non-Empty intersection, no version can sit in
the "gap" above `r1`'s upper bound and below `r2`'s lower bound. -/
lemma gap_absurd (r1 r2 : Rng) (v : Ver)
    (hma : rngMatchesAny r1 r2 = true)
    (hub : ubOK r1.max r1.includeMax v = false)
    (hlb : lbOK r2.min r2.includeMin v = false) : False := by
  obtain ⟨a1, b1, p1, q1⟩ := r1
  obtain ⟨a2, b2, p2, q2⟩ := r2
  simp only [rngMatchesAny, rangeIntersect] at hma
  simp only at hub hlb hma
  cases b1 with
  | none => simp [ubOK] at hub
  | some B1 =>
  cases a2 with
  | none => simp [lbOK] at hlb
  | some A2 =>
  obtain ⟨L, fL, hL, hLA⟩ := tightLB_some_snd (a1, p1) A2 p2
  obtain ⟨U, fU, hU, hBU⟩ := tightUB_some_fst B1 q1 (b2, q2)
  rw [hL, hU] at hma
  rw [ubOK_false_iff] at hub
  rw [lbOK_false_iff] at hlb
  obtain ⟨hub1, hub2⟩ := hub
  obtain ⟨hlb1, hlb2⟩ := hlb
  simp only [mkRange] at hma
  split_ifs at hma with h1 h2 h3
  · simp [IsNone] at hma
  · subst h2
    rw [Bool.and_eq_true] at h3
    have hfL : lbOK (some L) fL L = true :=
      lbOK_some_iff.mpr (Or.inr ⟨h3.1, rfl⟩)
    have hfU : ubOK (some L) fU L = true :=
      ubOK_some_iff.mpr (Or.inr ⟨h3.2, rfl⟩)
    have h5 := ((tightLB_true_iff (a1, p1) (some A2, p2) L).mp
      (by rw [hL]; exact hfL)).2
    have h6 := ((tightUB_true_iff (some B1, q1) (b2, q2) L).mp
      (by rw [hU]; exact hfU)).1
    rw [lbOK_some_iff] at h5
    rw [ubOK_some_iff] at h6
    rw [Ver.ltb_false_iff] at hub1 hlb1
    rcases h5 with h5 | ⟨hp2, h5⟩ <;> rcases h6 with h6 | ⟨hq1, h6⟩
    · rw [Ver.ltb_iff] at h5 h6; omega
    · subst h6; rw [Ver.ltb_iff] at h5; omega
    · subst h5; rw [Ver.ltb_iff] at h6; omega
    · subst h5
      subst h6
      have hv1 := hub2 hq1
      have hv2 := hlb2 hp2
      rw [Ver.eq_iff] at hv1 hv2
      omega
  · simp [IsNone] at hma
  · have h1' : Ver.ltb U L = false := by rw [← Bool.not_eq_true]; exact h1
    have hLU : Ver.ltb L U = true := by
      cases hx : Ver.ltb L U
      · exact absurd (Ver.ltb_total hx h1') h2
      · rfl
    rw [Ver.ltb_iff] at hLU
    rw [Ver.ltb_false_iff] at hLA hBU hub1 hlb1
    omega

/-- The mirrored gap: no version can sit above `r2`'s upper bound and below
`r1`'s lower bound when the intersection is non-Empty. -/
lemma gap_absurd2 (r1 r2 : Rng) (v : Ver)
    (hma : rngMatchesAny r1 r2 = true)
    (hub : ubOK r2.max r2.includeMax v = false)
    (hlb : lbOK r1.min r1.includeMin v = false) : False := by
  obtain ⟨a1, b1, p1, q1⟩ := r1
  obtain ⟨a2, b2, p2, q2⟩ := r2
  simp only [rngMatchesAny, rangeIntersect] at hma
  simp only at hub hlb hma
  cases b2 with
  | none => simp [ubOK] at hub
  | some B2 =>
  cases a1 with
  | none => simp [lbOK] at hlb
  | some A1 =>
  obtain ⟨L, fL, hL, hLA⟩ := tightLB_some_fst A1 p1 (a2, p2)
  obtain ⟨U, fU, hU, hBU⟩ := tightUB_some_snd (b1, q1) B2 q2
  rw [hL, hU] at hma
  rw [ubOK_false_iff] at hub
  rw [lbOK_false_iff] at hlb
  obtain ⟨hub1, hub2⟩ := hub
  obtain ⟨hlb1, hlb2⟩ := hlb
  simp only [mkRange] at hma
  split_ifs at hma with h1 h2 h3
  · simp [IsNone] at hma
  · subst h2
    rw [Bool.and_eq_true] at h3
    have hfL : lbOK (some L) fL L = true :=
      lbOK_some_iff.mpr (Or.inr ⟨h3.1, rfl⟩)
    have hfU : ubOK (some L) fU L = true :=
      ubOK_some_iff.mpr (Or.inr ⟨h3.2, rfl⟩)
    have h5 := ((tightLB_true_iff (some A1, p1) (a2, p2) L).mp
      (by rw [hL]; exact hfL)).1
    have h6 := ((tightUB_true_iff (b1, q1) (some B2, q2) L).mp
      (by rw [hU]; exact hfU)).2
    rw [lbOK_some_iff] at h5
    rw [ubOK_some_iff] at h6
    rw [Ver.ltb_false_iff] at hub1 hlb1
    rcases h5 with h5 | ⟨hp1, h5⟩ <;> rcases h6 with h6 | ⟨hq2, h6⟩
    · rw [Ver.ltb_iff] at h5 h6; omega
    · subst h6; rw [Ver.ltb_iff] at h5; omega
    · subst h5; rw [Ver.ltb_iff] at h6; omega
    · subst h5
      subst h6
      have hv1 := hub2 hq2
      have hv2 := hlb2 hp1
      rw [Ver.eq_iff] at hv1 hv2
      omega
  · simp [IsNone] at hma
  · have h1' : Ver.ltb U L = false := by rw [← Bool.not_eq_true]; exact h1
    have hLU : Ver.ltb L U = true := by
      cases hx : Ver.ltb L U
      · exact absurd (Ver.ltb_total hx h1') h2
      · rfl
    rw [Ver.ltb_iff] at hLU
    rw [Ver.ltb_false_iff] at hLA hBU hub1 hlb1
    omega

/-- When the two ranges are adjacent at a shared bound value, no version
can sit in the gap between them. -/
lemma adj_gap_absurd (r1 r2 : Rng) (v : Ver)
    (hadj : areAdjacent r1 r2 = true)
    (hub : ubOK r1.max r1.includeMax v = false)
    (hlb : lbOK r2.min r2.includeMin v = false) : False := by
  obtain ⟨a1, b1, p1, q1⟩ := r1
  obtain ⟨a2, b2, p2, q2⟩ := r2
  simp only [areAdjacent] at hadj
  simp only at hub hlb
  cases b1 with
  | none => simp at hadj
  | some B1 =>
  cases a2 with
  | none => simp at hadj
  | some A2 =>
  rw [Bool.and_eq_true, decide_eq_true_eq] at hadj
  obtain ⟨heq, hflags⟩ := hadj
  subst heq
  rw [ubOK_false_iff] at hub
  rw [lbOK_false_iff] at hlb
  obtain rfl := Ver.ltb_total hub.1 hlb.1
  rw [Bool.or_eq_true] at hflags
  rcases hflags with hq | hp
  · exact hub.2 hq rfl
  · exact hlb.2 hp rfl

/-- With adjacency at a shared bound, a version admitted by `r1`'s upper
bound and by `r2`'s lower bound but rejected by `r1`'s (well-formed) lower
bound cannot exist. -/
lemma adjB_absurd (r1 r2 : Rng) (v : Ver)
    (hwf1 : r1.WF = true)
    (hadj : areAdjacent r1 r2 = true)
    (hlb1 : lbOK r1.min r1.includeMin v = false)
    (hub1 : ubOK r1.max r1.includeMax v = true)
    (hlb2 : lbOK r2.min r2.includeMin v = true) : False := by
  obtain ⟨a1, b1, p1, q1⟩ := r1
  obtain ⟨a2, b2, p2, q2⟩ := r2
  simp only [areAdjacent] at hadj
  simp only [Rng.WF] at hwf1
  simp only at hlb1 hub1 hlb2
  cases b1 with
  | none => simp at hadj
  | some B1 =>
  cases a2 with
  | none => simp at hadj
  | some A2 =>
  rw [Bool.and_eq_true, decide_eq_true_eq] at hadj
  obtain ⟨heq, hflags⟩ := hadj
  subst heq
  rw [ubOK_some_iff] at hub1
  rw [lbOK_some_iff] at hlb2
  -- from the two admissions at the shared value, v equals that value
  have hvB : v = B1 := by
    rcases hub1 with h | ⟨_, h⟩
    · rcases hlb2 with h2 | ⟨_, h2⟩
      · exact absurd h2 (by simp [Ver.ltb_asymm h])
      · exact h2.symm
    · exact h
  subst hvB
  cases a1 with
  | none => simp [lbOK] at hlb1
  | some A1 =>
  rw [lbOK_false_iff] at hlb1
  rw [Ver.ltb_iff] at hwf1
  rw [Ver.ltb_false_iff] at hlb1
  rcases hlb1 with ⟨h, _⟩
  omega

/-- Soundness of the merged Range: when two well-formed ranges overlap or
are adjacent, their hull matches exactly the union of what they match. -/
lemma mergedRng_matches (r1 r2 : Rng) (v : Ver)
    (hwf1 : r1.WF = true)
    (hcond : (rngMatchesAny r1 r2 || areAdjacent r1 r2) = true) :
    (mergedRng r1 r2).matches v = (r1.matches v || r2.matches v) := by
  have hL := looseLB_ok (r1.min, r1.includeMin) (r2.min, r2.includeMin) v
  have hU := looseUB_ok (r1.max, r1.includeMax) (r2.max, r2.includeMax) v
  simp only at hL hU
  simp only [mergedRng, Rng.matches]
  rw [hL, hU]
  rw [Bool.or_eq_true] at hcond
  cases h1 : lbOK r1.min r1.includeMin v <;>
    cases h2 : ubOK r1.max r1.includeMax v <;>
    cases h3 : lbOK r2.min r2.includeMin v <;>
    cases h4 : ubOK r2.max r2.includeMax v <;> try rfl
  · -- v below r1's lower bound, above r2's upper bound
    exfalso
    rcases hcond with hma | hadj
    · exact gap_absurd2 r1 r2 v hma h4 h1
    · exact adjB_absurd r1 r2 v hwf1 hadj h1 h2 h3
  · -- v above r1's upper bound, below r2's lower bound
    exfalso
    rcases hcond with hma | hadj
    · exact gap_absurd r1 r2 v hma h2 h3
    · exact adj_gap_absurd r1 r2 v hadj h2 h3

lemma looseLB_some_le (A1 : Ver) (p1 : Bool) (A2 : Ver) (p2 : Bool) :
    ∃ L fL, looseLB (some A1, p1) (some A2, p2) = (some L, fL) ∧
      Ver.ltb A1 L = false := by
  simp only [looseLB]
  by_cases h : Ver.ltb A1 A2 = true
  · exact ⟨A1, p1, by rw [if_pos h], Ver.ltb_irrefl A1⟩
  · by_cases h2 : Ver.ltb A2 A1 = true
    · exact ⟨A2, p2, by rw [if_neg h, if_pos h2],
        by rw [← Bool.not_eq_true]; exact h⟩
    · exact ⟨A1, p1 || p2, by rw [if_neg h, if_neg h2], Ver.ltb_irrefl A1⟩

lemma looseUB_some_ge (B1 : Ver) (q1 : Bool) (B2 : Ver) (q2 : Bool) :
    ∃ U fU, looseUB (some B1, q1) (some B2, q2) = (some U, fU) ∧
      Ver.ltb U B1 = false := by
  simp only [looseUB]
  by_cases h : Ver.ltb B1 B2 = true
  · exact ⟨B2, q2, by rw [if_pos h], Ver.ltb_asymm h⟩
  · by_cases h2 : Ver.ltb B2 B1 = true
    · exact ⟨B1, q1, by rw [if_neg h, if_pos h2], Ver.ltb_irrefl B1⟩
    · exact ⟨B1, q1 || q2, by rw [if_neg h, if_neg h2], Ver.ltb_irrefl B1⟩

lemma mergedRng_WF (r1 r2 : Rng) (hwf1 : r1.WF = true) (hwf2 : r2.WF = true) :
    (mergedRng r1 r2).WF = true := by
  obtain ⟨a1, b1, p1, q1⟩ := r1
  obtain ⟨a2, b2, p2, q2⟩ := r2
  simp only [Rng.WF] at hwf1 hwf2
  cases a1 with
  | none => cases b1 <;> cases a2 <;> cases b2 <;> rfl
  | some A1 =>
  cases a2 with
  | none => cases b1 <;> cases b2 <;> rfl
  | some A2 =>
  cases b1 with
  | none =>
    cases hmin : (looseLB (some A1, p1) (some A2, p2)).1 <;>
      simp [mergedRng, Rng.WF, hmin, looseUB]
  | some B1 =>
  cases b2 with
  | none =>
    cases hmin : (looseLB (some A1, p1) (some A2, p2)).1 <;>
      simp [mergedRng, Rng.WF, hmin, looseUB]
  | some B2 =>
  obtain ⟨L, fL, hL, hAL⟩ := looseLB_some_le A1 p1 A2 p2
  obtain ⟨U, fU, hU, hUB⟩ := looseUB_some_ge B1 q1 B2 q2
  simp only [mergedRng, hL, hU, Rng.WF]
  rw [Ver.ltb_iff] at hwf1 ⊢
  rw [Ver.ltb_false_iff] at hAL hUB
  rw [Ver.ltb_iff] at hwf2
  omega

lemma perm_any {l1 l2 : List RealConstraint} (h : l1.Perm l2)
    (f : RealConstraint → Bool) : l1.any f = l2.any f := by
  rcases h1 : l1.any f with _ | _ <;> rcases h2 : l2.any f with _ | _ <;> try rfl
  · rw [List.any_eq_true] at h2
    rw [List.any_eq_false] at h1
    obtain ⟨x, hx, hfx⟩ := h2
    exact absurd hfx (by simpa using h1 x (h.mem_iff.mpr hx))
  · rw [List.any_eq_true] at h1
    rw [List.any_eq_false] at h2
    obtain ⟨x, hx, hfx⟩ := h1
    exact absurd hfx (by simpa using h2 x (h.mem_iff.mp hx))

lemma matches_absorb {lt : Rng} {ct v : Ver} (h : lt.matches ct = true) :
    (lt.matches v || decide (ct = v)) = lt.matches v := by
  cases hv : decide (ct = v)
  · simp
  · rw [decide_eq_true_eq] at hv
    subst hv
    simp [h]

lemma widenMin_matches {b : Option Ver} {q : Bool} {ct v : Ver}
    (hub : ubOK b q ct = true) :
    Rng.matches ⟨some ct, b, true, q⟩ v =
      (Rng.matches ⟨some ct, b, false, q⟩ v || decide (ct = v)) := by
  simp only [Rng.matches, lbOK]
  by_cases hv : ct = v
  · subst hv
    simp [hub]
  · simp [hv]

lemma widenMax_matches {a : Option Ver} {p : Bool} {ct v : Ver}
    (hlb : lbOK a p ct = true) :
    Rng.matches ⟨a, some ct, p, true⟩ v =
      (Rng.matches ⟨a, some ct, p, false⟩ v || decide (ct = v)) := by
  simp only [Rng.matches, ubOK]
  by_cases hv : v = ct
  · subst hv
    simp [hlb]
  · have hv' : ¬ct = v := fun hc => hv hc.symm
    simp [hv, hv']

/-- One sweep step preserves the union semantics of the accumulated
members. -/
lemma sweepStep_matches (nuc : List RealConstraint) (c : RealConstraint) (v : Ver)
    (hlast : ∀ x ∈ nuc, x.WF = true) (hc : c.WF = true) :
    (sweepStep nuc c).any (fun m => m.matches v) =
      (nuc.any (fun m => m.matches v) || c.matches v) := by
  rcases List.eq_nil_or_concat' nuc with rfl | ⟨pre, last, rfl⟩
  · simp [sweepStep]
  · have hlastWF : last.WF = true := hlast last (by simp)
    cases last with
    | point lt =>
      cases c with
      | point ct =>
        by_cases h : lt = ct
        · subst h
          simp only [sweepStep, List.getLast?_concat, if_pos rfl]
          cases hv : decide (lt = v)
          · simp [RealConstraint.matches, hv]
          · rw [decide_eq_true_eq] at hv
            have hm : (pre ++ [RealConstraint.point lt]).any
                (fun m => m.matches v) = true := by
              rw [List.any_append]
              simp [RealConstraint.matches, hv]
            simp [hm, RealConstraint.matches, hv]
        · simp [sweepStep, List.getLast?_concat, h, List.any_append,
            RealConstraint.matches, Bool.or_assoc]
      | rng cr =>
        simp [sweepStep, List.getLast?_concat, List.any_append,
          RealConstraint.matches, Bool.or_assoc]
    | rng lt =>
      have hltWF : lt.WF = true := by simpa [RealConstraint.WF] using hlastWF
      cases c with
      | point ct =>
        obtain ⟨a, b, p, q⟩ := lt
        simp only [sweepStep, List.getLast?_concat]
        rw [Rng.unionVer]
        split_ifs with h1 h2 h3
        · simp only [List.dropLast_concat, List.any_append, List.any_cons,
            List.any_nil, Bool.or_false, RealConstraint.matches]
          conv_rhs => rw [Bool.or_assoc, matches_absorb h1]
        · obtain ⟨hmin, hp⟩ := h2
          simp only at hmin
          subst hmin
          subst hp
          have hub : ubOK b q ct = true := by
            cases b with
            | none => rfl
            | some M =>
              simp only [Rng.WF] at hltWF
              exact ubOK_some_iff.mpr (Or.inl hltWF)
          simp only [List.dropLast_concat, List.any_append, List.any_cons,
            List.any_nil, Bool.or_false, RealConstraint.matches]
          rw [widenMin_matches hub, ← Bool.or_assoc]
        · obtain ⟨hmax, hq⟩ := h3
          simp only at hmax
          subst hmax
          subst hq
          have hlb : lbOK a p ct = true := by
            cases a with
            | none => rfl
            | some m =>
              simp only [Rng.WF] at hltWF
              exact lbOK_some_iff.mpr (Or.inl hltWF)
          simp only [List.dropLast_concat, List.any_append, List.any_cons,
            List.any_nil, Bool.or_false, RealConstraint.matches]
          rw [widenMax_matches hlb, ← Bool.or_assoc]
        · cases a with
          | none =>
            simp [List.dropLast_concat, List.any_append, RealConstraint.matches,
              Bool.or_assoc]
          | some m =>
            by_cases hvm : Ver.ltb ct m = true
            · simp [hvm, List.dropLast_concat, List.any_append,
                RealConstraint.matches, Bool.or_assoc, Bool.or_comm,
                Bool.or_left_comm]
            · simp [hvm, List.dropLast_concat, List.any_append,
                RealConstraint.matches, Bool.or_assoc]
      | rng cr =>
        simp only [sweepStep, List.getLast?_concat]
        by_cases h : (rngMatchesAny lt cr || areAdjacent lt cr) = true
        · rw [if_pos h, Rng.unionRng, if_pos h]
          simp only [List.dropLast_concat, List.any_append, List.any_cons,
            List.any_nil, Bool.or_false, RealConstraint.matches]
          rw [mergedRng_matches lt cr v hltWF h, ← Bool.or_assoc]
        · rw [if_neg h]
          simp [List.any_append, RealConstraint.matches, Bool.or_assoc]

/-- One sweep step preserves well-formedness of the accumulated members. -/
lemma sweepStep_WF (nuc : List RealConstraint) (c : RealConstraint)
    (hlast : ∀ x ∈ nuc, x.WF = true) (hc : c.WF = true) :
    ∀ x ∈ sweepStep nuc c, x.WF = true := by
  rcases List.eq_nil_or_concat' nuc with rfl | ⟨pre, last, rfl⟩
  · intro x hx
    simp [sweepStep] at hx
    subst hx
    exact hc
  · have hlastWF : last.WF = true := hlast last (by simp)
    have hpre : ∀ x ∈ pre, x.WF = true :=
      fun x hx => hlast x (List.mem_append_left _ hx)
    have happend : ∀ y : RealConstraint, y.WF = true →
        ∀ x ∈ pre ++ [y], x.WF = true := by
      intro y hy x hx
      rcases List.mem_append.mp hx with h | h
      · exact hpre x h
      · simp at h
        subst h
        exact hy
    have happend2 : ∀ y z : RealConstraint, y.WF = true → z.WF = true →
        ∀ x ∈ pre ++ [y, z], x.WF = true := by
      intro y z hy hz x hx
      rcases List.mem_append.mp hx with h | h
      · exact hpre x h
      · rcases List.mem_cons.mp h with rfl | h2
        · exact hy
        · simp at h2
          subst h2
          exact hz
    cases last with
    | point lt =>
      cases c with
      | point ct =>
        by_cases h : lt = ct
        · subst h
          simp only [sweepStep, List.getLast?_concat, if_pos rfl]
          exact hlast
        · simp only [sweepStep, List.getLast?_concat, if_neg h]
          intro x hx
          rcases List.mem_append.mp hx with h2 | h2
          · exact hlast x h2
          · simp at h2
            subst h2
            exact hc
      | rng cr =>
        simp only [sweepStep, List.getLast?_concat]
        intro x hx
        rcases List.mem_append.mp hx with h2 | h2
        · exact hlast x h2
        · simp at h2
          subst h2
          exact hc
    | rng lt =>
      have hltWF : lt.WF = true := by simpa [RealConstraint.WF] using hlastWF
      cases c with
      | point ct =>
        obtain ⟨a, b, p, q⟩ := lt
        simp only [sweepStep, List.getLast?_concat]
        rw [Rng.unionVer]
        split_ifs with h1 h2 h3
        · rw [List.dropLast_concat]
          exact happend _ (by simpa [RealConstraint.WF] using hltWF)
        · obtain ⟨hmin, hp⟩ := h2
          simp only at hmin
          subst hmin
          subst hp
          rw [List.dropLast_concat]
          refine happend _ ?_
          simpa [RealConstraint.WF, Rng.WF] using hltWF
        · obtain ⟨hmax, hq⟩ := h3
          simp only at hmax
          subst hmax
          subst hq
          rw [List.dropLast_concat]
          refine happend _ ?_
          simpa [RealConstraint.WF, Rng.WF] using hltWF
        · cases a with
          | none =>
            rw [List.dropLast_concat]
            exact happend2 _ _ (by simpa [RealConstraint.WF] using hltWF) rfl
          | some m =>
            by_cases hvm : Ver.ltb ct m = true
            · simp only [hvm, if_pos rfl]
              rw [List.dropLast_concat]
              exact happend2 _ _ rfl (by simpa [RealConstraint.WF] using hltWF)
            · simp only [hvm]
              rw [if_neg (by simp [hvm]), List.dropLast_concat]
              exact happend2 _ _ (by simpa [RealConstraint.WF] using hltWF) rfl
      | rng cr =>
        have hcrWF : cr.WF = true := by simpa [RealConstraint.WF] using hc
        simp only [sweepStep, List.getLast?_concat]
        by_cases h : (rngMatchesAny lt cr || areAdjacent lt cr) = true
        · rw [if_pos h, Rng.unionRng, if_pos h, List.dropLast_concat]
          refine happend _ ?_
          simpa [RealConstraint.WF] using mergedRng_WF lt cr hltWF hcrWF
        · rw [if_neg h]
          intro x hx
          rcases List.mem_append.mp hx with h2 | h2
          · exact hlast x h2
          · simp at h2
            subst h2
            exact hc

/-- The whole sweep preserves the union semantics and well-formedness. -/
lemma sweep_matches : ∀ (l acc : List RealConstraint) (v : Ver),
    (∀ x ∈ acc, x.WF = true) → (∀ x ∈ l, x.WF = true) →
    ((l.foldl sweepStep acc).any (fun m => m.matches v) =
      (acc.any (fun m => m.matches v) || l.any (fun m => m.matches v)) ∧
      (∀ x ∈ l.foldl sweepStep acc, x.WF = true)) := by
  intro l
  induction l with
  | nil =>
    intro acc v hacc _
    exact ⟨by simp, hacc⟩
  | cons c rest ih =>
    intro acc v hacc hl
    have hcWF : c.WF = true := hl c (by simp)
    have hrest : ∀ x ∈ rest, x.WF = true := fun x hx => hl x (by simp [hx])
    have hstep := sweepStep_WF acc c hacc hcWF
    obtain ⟨ih1, ih2⟩ := ih (sweepStep acc c) v hstep hrest
    refine ⟨?_, by simpa using ih2⟩
    simp only [List.foldl_cons]
    rw [ih1, sweepStep_matches acc c v hacc hcWF]
    simp [Bool.or_assoc]

lemma collectRealU_any_matches : ∀ (cg : List Constraint) (real : List RealConstraint)
    (v : Ver), collectRealU cg = some real →
    real.any (fun m => m.matches v) = cg.any (fun c => c.matches v) := by
  intro cg
  induction cg with
  | nil =>
    intro real v h
    simp only [collectRealU, Option.some.injEq] at h
    subst h
    rfl
  | cons c rest ih =>
    intro real v h
    cases c with
    | any => simp [collectRealU] at h
    | none =>
      simp only [collectRealU] at h
      rw [List.any_cons]
      simp only [Constraint.matches, Bool.false_or]
      exact ih real v h
    | version w =>
      simp only [collectRealU] at h
      cases hr : collectRealU rest with
      | none => rw [hr] at h; simp at h
      | some real2 =>
        rw [hr] at h
        simp only [Option.map_some', Option.some.injEq] at h
        subst h
        rw [List.any_cons, List.any_cons, ih real2 v hr]
        rfl
    | rangeC r =>
      simp only [collectRealU] at h
      cases hr : collectRealU rest with
      | none => rw [hr] at h; simp at h
      | some real2 =>
        rw [hr] at h
        simp only [Option.map_some', Option.some.injEq] at h
        subst h
        rw [List.any_cons, List.any_cons, ih real2 v hr]
        rfl
    | unionC ms =>
      simp only [collectRealU] at h
      cases hr : collectRealU rest with
      | none => rw [hr] at h; simp at h
      | some real2 =>
        rw [hr] at h
        simp only [Option.map_some', Option.some.injEq] at h
        subst h
        rw [List.any_append, List.any_cons, ih real2 v hr]
        rfl

lemma collectRealU_WF : ∀ (cg : List Constraint) (real : List RealConstraint),
    (∀ c ∈ cg, c.WF = true) → collectRealU cg = some real →
    ∀ x ∈ real, x.WF = true := by
  intro cg
  induction cg with
  | nil =>
    intro real hwf h
    simp only [collectRealU, Option.some.injEq] at h
    subst h
    simp
  | cons c rest ih =>
    intro real hwf h
    have hwfrest : ∀ c ∈ rest, c.WF = true := fun x hx => hwf x (by simp [hx])
    cases c with
    | any => simp [collectRealU] at h
    | none =>
      simp only [collectRealU] at h
      exact ih real hwfrest h
    | version w =>
      simp only [collectRealU] at h
      cases hr : collectRealU rest with
      | none => rw [hr] at h; simp at h
      | some real2 =>
        rw [hr] at h
        simp only [Option.map_some', Option.some.injEq] at h
        subst h
        intro x hx
        rcases List.mem_cons.mp hx with rfl | hx2
        · rfl
        · exact ih real2 hwfrest hr x hx2
    | rangeC r =>
      simp only [collectRealU] at h
      cases hr : collectRealU rest with
      | none => rw [hr] at h; simp at h
      | some real2 =>
        rw [hr] at h
        simp only [Option.map_some', Option.some.injEq] at h
        subst h
        intro x hx
        rcases List.mem_cons.mp hx with rfl | hx2
        · exact hwf (.rangeC r) (by simp)
        · exact ih real2 hwfrest hr x hx2
    | unionC ms =>
      simp only [collectRealU] at h
      cases hr : collectRealU rest with
      | none => rw [hr] at h; simp at h
      | some real2 =>
        rw [hr] at h
        simp only [Option.map_some', Option.some.injEq] at h
        subst h
        intro x hx
        rcases List.mem_append.mp hx with hx2 | hx2
        · have := hwf (.unionC ms) (by simp)
          simp only [Constraint.WF, List.all_eq_true] at this
          exact this x hx2
        · exact ih real2 hwfrest hr x hx2

lemma collectRealU_none_any_matches : ∀ (cg : List Constraint) (v : Ver),
    collectRealU cg = Option.none → cg.any (fun c => c.matches v) = true := by
  intro cg
  induction cg with
  | nil => intro v h; simp [collectRealU] at h
  | cons c rest ih =>
    intro v h
    cases c with
    | any => simp [Constraint.matches]
    | none =>
      simp only [collectRealU] at h
      simp only [List.any_cons, Constraint.matches, Bool.false_or]
      exact ih v h
    | version w =>
      simp only [collectRealU] at h
      cases hr : collectRealU rest with
      | none => simp only [List.any_cons, ih v hr, Bool.or_true]
      | some real2 => rw [hr] at h; simp at h
    | rangeC r =>
      simp only [collectRealU] at h
      cases hr : collectRealU rest with
      | none => simp only [List.any_cons, ih v hr, Bool.or_true]
      | some real2 => rw [hr] at h; simp at h
    | unionC ms =>
      simp only [collectRealU] at h
      cases hr : collectRealU rest with
      | none => simp only [List.any_cons, ih v hr, Bool.or_true]
      | some real2 => rw [hr] at h; simp at h

/-- Semantic soundness of `Union`: the result matches a version exactly
when some input does (for inputs satisfying the §3 range invariant). -/
theorem union_matches (cg : List Constraint) (v : Ver)
    (hwf : ∀ c ∈ cg, c.WF = true) :
    (Union cg).matches v = cg.any (fun c => c.matches v) := by
  match cg with
  | [] => rfl
  | [c] => simp [Union, List.any_cons]
  | c0 :: c1 :: rest =>
    cases h : collectRealU (c0 :: c1 :: rest) with
    | none =>
      simp only [Union, h, Constraint.matches]
      exact (collectRealU_none_any_matches _ v h).symm
    | some real =>
      have hrealWF := collectRealU_WF _ real hwf h
      have hperm : (sortCL real).Perm real := List.perm_insertionSort _ real
      have hsortWF : ∀ x ∈ sortCL real, x.WF = true :=
        fun x hx => hrealWF x (hperm.mem_iff.mp hx)
      obtain ⟨hs, _⟩ := sweep_matches (sortCL real) [] v (by simp) hsortWF
      have hchain : ((sortCL real).foldl sweepStep []).any (fun m => m.matches v) =
          (c0 :: c1 :: rest).any (fun c => c.matches v) := by
        rw [hs]
        simp only [List.any_nil, Bool.false_or]
        rw [perm_any hperm, collectRealU_any_matches _ real v h]
      simp only [Union, h]
      cases hfold : (sortCL real).foldl sweepStep [] with
      | nil =>
        rw [hfold] at hchain
        simp only [List.any_nil] at hchain
        simp only [Constraint.matches, List.any_nil]
        exact hchain
      | cons u us =>
        cases us with
        | nil =>
          rw [hfold] at hchain
          simp only [List.any_cons, List.any_nil, Bool.or_false] at hchain
          rw [toConstraint_matches, hchain]
          simp [List.any_cons]
        | cons u2 us2 =>
          rw [hfold] at hchain
          simp only [Constraint.matches]
          exact hchain

/-- `Union` preserves the §3 well-formedness invariant. -/
theorem union_WF (cg : List Constraint) (hwf : ∀ c ∈ cg, c.WF = true) :
    (Union cg).WF = true := by
  match cg with
  | [] => rfl
  | [c] => exact hwf c (by simp)
  | c0 :: c1 :: rest =>
    cases h : collectRealU (c0 :: c1 :: rest) with
    | none => simp [Union, h, Constraint.WF]
    | some real =>
      have hrealWF := collectRealU_WF _ real hwf h
      have hperm : (sortCL real).Perm real := List.perm_insertionSort _ real
      have hsortWF : ∀ x ∈ sortCL real, x.WF = true :=
        fun x hx => hrealWF x (hperm.mem_iff.mp hx)
      obtain ⟨_, hWF⟩ := sweep_matches (sortCL real) [] v100 (by simp) hsortWF
      simp only [Union, h]
      cases hfold : (sortCL real).foldl sweepStep [] with
      | nil => rfl
      | cons u us =>
        cases us with
        | nil =>
          rw [toConstraint_WF]
          exact hWF u (by rw [hfold]; simp)
        | cons u2 us2 =>
          simp only [Constraint.WF, List.all_eq_true]
          intro x hx
          exact hWF x (by rw [hfold]; exact hx)

lemma any_and_right (l : List RealConstraint) (f : RealConstraint → Bool)
    (b : Bool) : l.any (fun x => f x && b) = (l.any f && b) := by
  induction l with
  | nil => simp
  | cons x xs ih =>
    rw [List.any_cons, List.any_cons, ih]
    cases b <;> cases f x <;> simp

lemma any_and_left (l : List RealConstraint) (f : RealConstraint → Bool)
    (b : Bool) : l.any (fun x => b && f x) = (b && l.any f) := by
  induction l with
  | nil => simp
  | cons x xs ih =>
    rw [List.any_cons, List.any_cons, ih]
    cases b <;> cases f x <;> simp

lemma intersectReal_matches (a b : RealConstraint) (v : Ver) :
    (a.intersectReal b).matches v = (a.matches v && b.matches v) := by
  cases a with
  | point x =>
    cases b with
    | point y =>
      by_cases h : x = y
      · subst h
        simp [RealConstraint.intersectReal, Constraint.matches,
          RealConstraint.matches]
      · simp only [RealConstraint.intersectReal, if_neg h, Constraint.matches,
          RealConstraint.matches]
        cases hx : decide (x = v) <;> cases hy : decide (y = v) <;> try rfl
        rw [decide_eq_true_eq] at hx hy
        exact (h (hx.trans hy.symm)).elim
    | rng r =>
      by_cases h : r.matches x = true
      · simp only [RealConstraint.intersectReal, if_pos h, Constraint.matches,
          RealConstraint.matches]
        by_cases hv : x = v
        · subst hv; simp [h]
        · simp [hv]
      · simp only [RealConstraint.intersectReal, if_neg h, Constraint.matches,
          RealConstraint.matches]
        have h' : r.matches x = false := by rw [← Bool.not_eq_true]; exact h
        by_cases hv : x = v
        · subst hv; simp [h']
        · simp [hv]
  | rng r =>
    cases b with
    | point y =>
      by_cases h : r.matches y = true
      · simp only [RealConstraint.intersectReal, if_pos h, Constraint.matches,
          RealConstraint.matches]
        by_cases hv : y = v
        · subst hv; simp [h]
        · simp [hv]
      · simp only [RealConstraint.intersectReal, if_neg h, Constraint.matches,
          RealConstraint.matches]
        have h' : r.matches y = false := by rw [← Bool.not_eq_true]; exact h
        by_cases hv : y = v
        · subst hv; simp [h']
        · simp [hv]
    | rng r2 => exact rangeIntersect_matches r r2 v

lemma intersectReal_WF (a b : RealConstraint) : (a.intersectReal b).WF = true := by
  cases a with
  | point x =>
    cases b with
    | point y =>
      simp only [RealConstraint.intersectReal]
      split_ifs <;> rfl
    | rng r =>
      simp only [RealConstraint.intersectReal]
      split_ifs <;> rfl
  | rng r =>
    cases b with
    | point y =>
      simp only [RealConstraint.intersectReal]
      split_ifs <;> rfl
    | rng r2 => exact rangeIntersect_WF r r2

lemma any_map' {α β : Type} (l : List α) (f : α → β) (p : β → Bool) :
    (l.map f).any p = l.any (fun x => p (f x)) := by
  induction l with
  | nil => rfl
  | cons x xs ih => simp [List.any_cons, ih]

lemma any_flatMap' {α β : Type} (l : List α) (f : α → List β) (p : β → Bool) :
    (l.flatMap f).any p = l.any (fun x => (f x).any p) := by
  induction l with
  | nil => rfl
  | cons x xs ih => simp [List.any_cons, List.any_append, ih]

/-- Semantic soundness of the pairwise `Intersect` collaborator. -/
lemma intersectPair_matches (a b : Constraint) (v : Ver) :
    (intersectPair a b).matches v = (a.matches v && b.matches v) := by
  cases a with
  | none => rw [intersectPair_none_left]; simp [Constraint.matches]
  | any => cases b <;> simp [intersectPair, Constraint.matches]
  | version w =>
    cases b with
    | none => rw [intersectPair_none_right]; simp [Constraint.matches]
    | any => simp [intersectPair, Constraint.matches]
    | version u =>
      have : intersectPair (.version w) (.version u) =
          (RealConstraint.point w).intersectReal (.point u) := rfl
      rw [this, intersectReal_matches]
      rfl
    | rangeC r =>
      have : intersectPair (.version w) (.rangeC r) =
          (RealConstraint.point w).intersectReal (.rng r) := rfl
      rw [this, intersectReal_matches]
      rfl
    | unionC ms =>
      show (Union (ms.map (fun m =>
        RealConstraint.intersectReal (.point w) m))).matches v = _
      rw [union_matches _ v ?hwf]
      case hwf =>
        intro c hc
        rcases List.mem_map.mp hc with ⟨m, _, rfl⟩
        exact intersectReal_WF _ _
      rw [any_map']
      simp only [intersectReal_matches]
      rw [any_and_left]
      rfl
  | rangeC r =>
    cases b with
    | none => rw [intersectPair_none_right]; simp [Constraint.matches]
    | any => simp [intersectPair, Constraint.matches]
    | version u =>
      have : intersectPair (.rangeC r) (.version u) =
          (RealConstraint.rng r).intersectReal (.point u) := rfl
      rw [this, intersectReal_matches]
      rfl
    | rangeC r2 =>
      have : intersectPair (.rangeC r) (.rangeC r2) =
          (RealConstraint.rng r).intersectReal (.rng r2) := rfl
      rw [this, intersectReal_matches]
      rfl
    | unionC ms =>
      show (Union (ms.map (fun m =>
        RealConstraint.intersectReal (.rng r) m))).matches v = _
      rw [union_matches _ v ?hwf]
      case hwf =>
        intro c hc
        rcases List.mem_map.mp hc with ⟨m, _, rfl⟩
        exact intersectReal_WF _ _
      rw [any_map']
      simp only [intersectReal_matches]
      rw [any_and_left]
      rfl
  | unionC ms =>
    cases b with
    | none => rw [intersectPair_none_right]; simp [Constraint.matches]
    | any => simp [intersectPair, Constraint.matches]
    | version u =>
      show (Union (ms.map (fun m =>
        RealConstraint.intersectReal m (.point u)))).matches v = _
      rw [union_matches _ v ?hwf]
      case hwf =>
        intro c hc
        rcases List.mem_map.mp hc with ⟨m, _, rfl⟩
        exact intersectReal_WF _ _
      rw [any_map']
      simp only [intersectReal_matches]
      rw [any_and_right]
      rfl
    | rangeC r =>
      show (Union (ms.map (fun m =>
        RealConstraint.intersectReal m (.rng r)))).matches v = _
      rw [union_matches _ v ?hwf]
      case hwf =>
        intro c hc
        rcases List.mem_map.mp hc with ⟨m, _, rfl⟩
        exact intersectReal_WF _ _
      rw [any_map']
      simp only [intersectReal_matches]
      rw [any_and_right]
      rfl
    | unionC ns =>
      show (Union (ms.flatMap (fun m =>
        ns.map (fun n => m.intersectReal n)))).matches v = _
      rw [union_matches _ v ?hwf]
      case hwf =>
        intro c hc
        rcases List.mem_flatMap.mp hc with ⟨m, _, hc2⟩
        rcases List.mem_map.mp hc2 with ⟨n, _, rfl⟩
        exact intersectReal_WF _ _
      rw [any_flatMap']
      simp only [any_map', intersectReal_matches, any_and_left, any_and_right]
      rfl

/-- Semantic soundness of the pairwise fold of `Intersection`. -/
lemma foldIntersect_matches : ∀ (cdr : List Constraint) (car : Constraint) (v : Ver),
    (foldIntersect car cdr).matches v =
      (car.matches v && cdr.all (fun c => c.matches v)) := by
  intro cdr
  induction cdr with
  | nil => intro car v; simp [foldIntersect]
  | cons c rest ih =>
    intro car v
    show (if IsNone (intersectPair car c) then Constraint.none
        else foldIntersect (intersectPair car c) rest).matches v = _
    by_cases h : IsNone (intersectPair car c) = true
    · rw [if_pos h]
      have hnone := IsNone_iff.mp h
      have hfalse : (intersectPair car c).matches v = false := by rw [hnone]; rfl
      rw [intersectPair_matches] at hfalse
      show false = (car.matches v && ((c :: rest).all fun x => x.matches v))
      rw [List.all_cons, ← Bool.and_assoc, hfalse, Bool.false_and]
    · rw [if_neg h]
      rw [ih (intersectPair car c) v, intersectPair_matches]
      simp [List.all_cons, Bool.and_assoc]

/-- Semantic soundness of `Intersection`: for a non-empty input, the result
matches a version exactly when every input does. -/
theorem intersection_matches (cg : List Constraint) (v : Ver) (hne : cg ≠ []) :
    (Intersection cg).matches v = cg.all (fun c => c.matches v) := by
  match cg with
  | [] => exact absurd rfl hne
  | [c] => simp [Intersection, List.all_cons]
  | c0 :: c1 :: rest =>
    cases h : collectRealI (c0 :: c1 :: rest) with
    | none =>
      have hmem := collectRealI_none_imp_mem _ h
      simp only [Intersection, h]
      show false = ((c0 :: c1 :: rest).all fun c => c.matches v)
      cases hall : (c0 :: c1 :: rest).all (fun c => c.matches v)
      · rfl
      · rw [List.all_eq_true] at hall
        have := hall _ hmem
        simp [Constraint.matches] at this
    | some real =>
      simp only [Intersection, h]
      rw [foldIntersect_matches (c1 :: rest) c0 v]
      simp [List.all_cons, Bool.and_assoc]

/-! ## Claims -/

/-- **C1.**  In the `Union` merge sweep, for every pair of consecutive
sorted members where the last accumulated member is a Range and the next
member is a Range, if the two ranges overlap or are adjacent the last
accumulated member is replaced by their merged Range, and otherwise the new
Range is appended as a separate member; in particular the union of
`>=1.0.0, <2.0.0` and `>=2.0.0, <3.0.0` is the single range
`>=1.0.0, <3.0.0`. -/
theorem c1_union_sweep_merges_ranges :
    (∀ (pre : List RealConstraint) (lt ct : Rng),
      sweepStep (pre ++ [.rng lt]) (.rng ct) =
        if rngMatchesAny lt ct || areAdjacent lt ct then
          pre ++ [.rng (mergedRng lt ct)]
        else (pre ++ [.rng lt]) ++ [.rng ct]) ∧
    Union [.rangeC ⟨some v100, some v200, true, false⟩,
        .rangeC ⟨some v200, some v300, true, false⟩] =
      .rangeC ⟨some v100, some v300, true, false⟩ := by
  constructor
  · intro pre lt ct
    cases h : rngMatchesAny lt ct || areAdjacent lt ct <;>
      simp [sweepStep, List.getLast?_concat, List.dropLast_concat, Rng.unionRng, h]
  · decide

/-- **C3** (code bug witness).  `Union` applied to two Empty constraints
returns a `unionConstraint` with zero members, violating the invariant that
every UnionSet the function returns has at least two members. -/
theorem c3_union_of_empties_is_empty_unionset :
    Union [.none, .none] = .unionC [] := by decide

/-- **C4** (counterexample).  The claim says that in the merge sweep a
Point following a Range is always appended as a separate member.  At the
concrete input `Range >=1.0.0, <3.0.0` followed by `Point 2.0.0` the sweep
instead subsumes the point into the range: the accumulated list keeps its
single member, and the whole `Union` returns the bare range, not a
two-member UnionSet. -/
theorem c4_counterexample_point_subsumed :
    sweepStep [.rng ⟨some v100, some v300, true, false⟩] (.point v200) =
        [.rng ⟨some v100, some v300, true, false⟩] ∧
      Union [.rangeC ⟨some v100, some v300, true, false⟩, .version v200] =
        .rangeC ⟨some v100, some v300, true, false⟩ ∧
      [RealConstraint.rng ⟨some v100, some v300, true, false⟩] ≠
        [.rng ⟨some v100, some v300, true, false⟩, .point v200] := by
  refine ⟨by decide, by decide, by decide⟩

/-- **C4** (amended).  In the `Union` merge sweep, whenever the last
accumulated member is a Range and the next member is a Point, the point is
merged into the range (replacing the last accumulated member, widening an
excluded bound if the point sits exactly on it) when it lies inside or
adjacent to the range; only otherwise is it appended as a separate member
(before or after the range according to the sort order). -/
theorem c4_amended_union_sweep_range_point :
    (∀ (pre : List RealConstraint) (lt : Rng) (ct : Ver),
      lt.matches ct = true ∨ (lt.min = some ct ∧ lt.includeMin = false) ∨
          (lt.max = some ct ∧ lt.includeMax = false) →
        sweepStep (pre ++ [.rng lt]) (.point ct) =
          pre ++ [.rng (
            if lt.matches ct then lt
            else if lt.min = some ct ∧ lt.includeMin = false then
              { lt with includeMin := true }
            else { lt with includeMax := true })]) ∧
    (∀ (pre : List RealConstraint) (lt : Rng) (ct : Ver),
      ¬(lt.matches ct = true ∨ (lt.min = some ct ∧ lt.includeMin = false) ∨
          (lt.max = some ct ∧ lt.includeMax = false)) →
        (∀ m, lt.min = some m → Ver.ltb ct m = false) →
        sweepStep (pre ++ [.rng lt]) (.point ct) =
          (pre ++ [.rng lt]) ++ [.point ct]) := by
  constructor
  · intro pre lt ct h
    rcases h with h | h | h
    · simp [sweepStep, List.getLast?_concat, List.dropLast_concat, Rng.unionVer, h]
    · have hm : lt.matches ct = false := by
        rcases h with ⟨hmin, hincl⟩
        simp [Rng.matches, lbOK, hmin, hincl, Ver.ltb_irrefl]
      simp [sweepStep, List.getLast?_concat, List.dropLast_concat, Rng.unionVer, h, hm]
    · by_cases hm : lt.matches ct = true
      · simp [sweepStep, List.getLast?_concat, List.dropLast_concat, Rng.unionVer, hm]
      · by_cases h2 : lt.min = some ct ∧ lt.includeMin = false
        · simp [sweepStep, List.getLast?_concat, List.dropLast_concat, Rng.unionVer,
            h2, hm]
        · simp [sweepStep, List.getLast?_concat, List.dropLast_concat, Rng.unionVer,
            h, hm, h2]
  · intro pre lt ct h hmin
    push_neg at h
    obtain ⟨h1, h2, h3⟩ := h
    have h1' : lt.matches ct = false := by simpa using h1
    have h3' : ¬(lt.max = some ct ∧ lt.includeMax = false) := fun hc => h3 hc.1 hc.2
    cases hlt : lt.min with
    | none =>
      simp [sweepStep, List.getLast?_concat, List.dropLast_concat, Rng.unionVer,
        h1', h3', hlt]
    | some m =>
      have hm := hmin m hlt
      have h2' : ¬(m = ct ∧ lt.includeMin = false) :=
        fun hc => h2 (by rw [hlt, hc.1]) hc.2
      simp [sweepStep, List.getLast?_concat, List.dropLast_concat, Rng.unionVer,
        h1', h2', h3', hlt, hm]

/-- **C4** (amended) witness at concrete inputs: `2.0.0` inside
`>=1.0.0, <3.0.0` is subsumed; `3.0.0` after `>=1.0.0, <2.0.0` is appended. -/
theorem c4_amended_union_sweep_range_point_witness :
    Rng.matches ⟨some v100, some v300, true, false⟩ v200 = true ∧
      sweepStep [.rng ⟨some v100, some v300, true, false⟩] (.point v200) =
        [.rng ⟨some v100, some v300, true, false⟩] ∧
      sweepStep [.rng ⟨some v100, some v200, true, false⟩] (.point v300) =
        [.rng ⟨some v100, some v200, true, false⟩, .point v300] := by
  refine ⟨by decide, ?_, ?_⟩
  · have h := c4_amended_union_sweep_range_point.1 []
      ⟨some v100, some v300, true, false⟩ v200 (Or.inl (by decide))
    simpa using h
  · have h := c4_amended_union_sweep_range_point.2 []
      ⟨some v100, some v200, true, false⟩ v300 (by decide)
      (by intro m hm; simp at hm; subst hm; decide)
    simpa using h

/-- **C5.**  `Intersection` of zero constraints is Empty; of one constraint
it is that constraint unchanged; and of any sequence containing an Empty
constraint it is Empty. -/
theorem c5_intersection_edge_cases :
    Intersection [] = .none ∧ (∀ c, Intersection [c] = c) ∧
      (∀ cg : List Constraint, Constraint.none ∈ cg → Intersection cg = .none) := by
  refine ⟨rfl, fun c => rfl, ?_⟩
  intro cg h
  match cg with
  | [] => simp at h
  | [c] =>
    rcases List.mem_cons.mp h with rfl | hr
    · rfl
    · simp at hr
  | c0 :: c1 :: rest =>
    simp only [Intersection, collectRealI_of_none_mem _ h]

/-- **C5** witness at a concrete input. -/
theorem c5_intersection_edge_cases_witness :
    Constraint.none ∈ [Constraint.any, Constraint.none] ∧
      Intersection [Constraint.any, Constraint.none] = .none :=
  ⟨by decide, c5_intersection_edge_cases.2.2 [Constraint.any, Constraint.none]
    (by decide)⟩

/-- **C6.**  `Union` of zero constraints is Empty; of one constraint it is
that constraint unchanged; and of any sequence containing a Universal
constraint it is Universal. -/
theorem c6_union_edge_cases :
    Union [] = .none ∧ (∀ c, Union [c] = c) ∧
      (∀ cg : List Constraint, Constraint.any ∈ cg → Union cg = .any) := by
  refine ⟨rfl, fun c => rfl, ?_⟩
  intro cg h
  match cg with
  | [] => simp at h
  | [c] =>
    rcases List.mem_cons.mp h with rfl | hr
    · rfl
    · simp at hr
  | c0 :: c1 :: rest =>
    simp only [Union, collectRealU_of_any_mem _ h]

/-- **C6** witness at a concrete input. -/
theorem c6_union_edge_cases_witness :
    Constraint.any ∈ [Constraint.none, Constraint.any] ∧
      Union [Constraint.none, Constraint.any] = .any :=
  ⟨by decide, c6_union_edge_cases.2.2 [Constraint.none, Constraint.any] (by decide)⟩

/-- **C2.**  The value returned by `Intersection` equals the plain
left-to-right pairwise fold of the original input with the pairwise
`Intersect` operation, short-circuiting to Empty as soon as a partial
result is Empty (`IntersectionSpec`); the auxiliary sorted list built by
the preliminary pass is never consulted by the fold and has no effect on
the returned value. -/
theorem c2_intersection_refines_plain_fold :
    ∀ cg : List Constraint, Intersection cg = IntersectionSpec cg := by
  intro cg
  match cg with
  | [] => rfl
  | [c] => rfl
  | c0 :: c1 :: rest =>
    cases h : collectRealI (c0 :: c1 :: rest) with
    | none =>
      have hmem := collectRealI_none_imp_mem _ h
      have hspec : foldIntersect c0 (c1 :: rest) = .none := by
        rcases List.mem_cons.mp hmem with rfl | hr
        · simp [foldIntersect, intersectPair_none_left, IsNone]
        · exact foldIntersect_of_none_mem _ _ hr
      simp [Intersection, IntersectionSpec, h, hspec]
    | some real => simp [Intersection, IntersectionSpec, h]

lemma parseAll_eq_mapM (l : List String) : parseAll l = l.mapM parseConstraint := by
  induction l with
  | nil => rfl
  | cons s rest ih =>
    rw [List.mapM_cons, ← ih]
    cases h1 : parseConstraint s <;> cases h2 : parseAll rest <;>
      simp [parseAll, h1, h2, Bind.bind, Except.bind, Pure.pure, Except.pure]

lemma buildOrs_eq_mapM (l : List String) :
    buildOrs l = l.mapM
      (fun g => Except.map Intersection ((strSplit g ",").mapM parseConstraint)) := by
  induction l with
  | nil => rfl
  | cons g rest ih =>
    rw [List.mapM_cons, ← ih, ← parseAll_eq_mapM]
    cases h1 : parseAll (strSplit g ",") <;> cases h2 : buildOrs rest <;>
      simp [buildOrs, h1, h2, Except.map, Bind.bind, Except.bind, Pure.pure,
        Except.pure]

/-- **C8.**  For every expression string not already memoized,
`NewConstraint` applies the hyphen-range rewrite first, splits the
rewritten string on `"||"` into OR-groups, splits each OR-group on `","`
into AND-members, parses each AND-member with the token parser, folds each
AND-group with `Intersection`, folds the OR-group constraints with `Union`,
and returns that final constraint (caching it; an error aborts). -/
theorem c8_new_constraint_pipeline :
    ∀ (s : String) (cache : Cache), lookupCache cache s = Option.none →
      NewConstraint s cache =
        match ((strSplit (rewriteRange s) "||").mapM
            (fun g => Except.map Intersection
              ((strSplit g ",").mapM parseConstraint))) with
        | .ok ors => (.ok (Union ors), (s, Union ors) :: cache)
        | .error e => (.error e, cache) := by
  intro s cache h
  rw [← buildOrs_eq_mapM]
  cases hb : buildOrs (strSplit (rewriteRange s) "||") <;>
    simp [NewConstraint, cacheConstraints, h, hb]

/-- **C8** witness at a concrete expression. -/
theorem c8_new_constraint_pipeline_witness :
    lookupCache [] ">=1.2.3, <2.0.0 || 3.0.0" = Option.none ∧
      NewConstraint ">=1.2.3, <2.0.0 || 3.0.0" [] =
        match ((strSplit (rewriteRange ">=1.2.3, <2.0.0 || 3.0.0") "||").mapM
            (fun g => Except.map Intersection
              ((strSplit g ",").mapM parseConstraint))) with
        | .ok ors => (.ok (Union ors), (">=1.2.3, <2.0.0 || 3.0.0", Union ors) :: [])
        | .error e => (.error e, []) :=
  ⟨rfl, c8_new_constraint_pipeline ">=1.2.3, <2.0.0 || 3.0.0" [] rfl⟩

/-- **C9.**  A failed parse returns the error with the cache unchanged
(in Go: a nil constraint together with the error, and nothing stored); a
cache hit returns the memoized constraint unchanged without re-running the
pipeline (whatever the pipeline would do); and a successful parse caches
the result under the original input string, so a second call with the same
string is a cache hit. -/
theorem c9_parse_error_and_cache :
    (∀ (s : String) (cache : Cache) (e : String),
      lookupCache cache s = Option.none →
        buildOrs (strSplit (rewriteRange s) "||") = .error e →
        NewConstraint s cache = (.error e, cache)) ∧
    (∀ (s : String) (c : Constraint) (cache : Cache),
      lookupCache cache s = some c → NewConstraint s cache = (.ok c, cache)) ∧
    (∀ (s : String) (cache : Cache) (ors : List Constraint),
      lookupCache cache s = Option.none →
        buildOrs (strSplit (rewriteRange s) "||") = .ok ors →
        NewConstraint s cache = (.ok (Union ors), (s, Union ors) :: cache) ∧
          lookupCache ((s, Union ors) :: cache) s = some (Union ors)) := by
  refine ⟨?_, ?_, ?_⟩
  · intro s cache e h hb
    simp [NewConstraint, cacheConstraints, h, hb]
  · intro s c cache h
    simp [NewConstraint, cacheConstraints, h]
  · intro s cache ors h hb
    constructor
    · simp [NewConstraint, cacheConstraints, h, hb]
    · simp [lookupCache, List.find?]

/-- **C9** witness at concrete inputs: a malformed expression errors and
caches nothing; a cached expression is answered from the cache; a
well-formed expression is parsed and cached. -/
theorem c9_parse_error_and_cache_witness :
    (lookupCache [] "bogus!" = Option.none ∧
      buildOrs (strSplit (rewriteRange "bogus!") "||") =
        .error "Malformed constraint: bogus!" ∧
      NewConstraint "bogus!" [] = (.error "Malformed constraint: bogus!", [])) ∧
    (lookupCache [("cached", Constraint.any)] "cached" = some .any ∧
      NewConstraint "cached" [("cached", Constraint.any)] =
        (.ok .any, [("cached", Constraint.any)])) ∧
    (NewConstraint ">=1.2.3" [] =
        (.ok (.rangeC ⟨some ⟨1, 2, 3⟩, Option.none, true, false⟩),
          [(">=1.2.3", .rangeC ⟨some ⟨1, 2, 3⟩, Option.none, true, false⟩)]) ∧
      lookupCache [(">=1.2.3", Constraint.rangeC
          ⟨some ⟨1, 2, 3⟩, Option.none, true, false⟩)] ">=1.2.3" =
        some (.rangeC ⟨some ⟨1, 2, 3⟩, Option.none, true, false⟩)) := by
  refine ⟨⟨rfl, rfl, ?_⟩, ⟨rfl, ?_⟩, ?_⟩
  · exact c9_parse_error_and_cache.1 "bogus!" [] _ rfl rfl
  · exact c9_parse_error_and_cache.2.1 "cached" .any _ rfl
  · have h := c9_parse_error_and_cache.2.2 ">=1.2.3" []
      [.rangeC ⟨some ⟨1, 2, 3⟩, Option.none, true, false⟩] rfl rfl
    simpa using h

/-- **C7.**  For all constraints `a`, `b`, `c` satisfying the data model's
range invariant (§3: a bounded range's lower bound is strictly below its
upper bound), `Intersection [a, b]` is semantically equivalent to
`Intersection [b, a]` and `Union [a, b]` to `Union [b, a]` — they match
exactly the same versions — and both operations are associative in the same
semantic sense. -/
theorem c7_commutative_associative :
    ∀ (a b c : Constraint) (v : Ver),
      a.WF = true → b.WF = true → c.WF = true →
      ((Intersection [a, b]).matches v = (Intersection [b, a]).matches v ∧
        (Union [a, b]).matches v = (Union [b, a]).matches v ∧
        (Intersection [Intersection [a, b], c]).matches v =
          (Intersection [a, Intersection [b, c]]).matches v ∧
        (Union [Union [a, b], c]).matches v =
          (Union [a, Union [b, c]]).matches v) := by
  intro a b c v ha hb hc
  have wf2 : ∀ (x y : Constraint), x.WF = true → y.WF = true →
      ∀ z ∈ [x, y], z.WF = true := by
    intro x y hx hy z hz
    rcases List.mem_cons.mp hz with rfl | hz2
    · exact hx
    · rcases List.mem_cons.mp hz2 with rfl | hz3
      · exact hy
      · simp at hz3
  refine ⟨?_, ?_, ?_, ?_⟩
  · rw [intersection_matches _ v (by simp), intersection_matches _ v (by simp)]
    simp only [List.all_cons, List.all_nil, Bool.and_true]
    exact Bool.and_comm _ _
  · rw [union_matches _ v (wf2 a b ha hb), union_matches _ v (wf2 b a hb ha)]
    simp only [List.any_cons, List.any_nil, Bool.or_false]
    exact Bool.or_comm _ _
  · rw [intersection_matches _ v (by simp), intersection_matches _ v (by simp)]
    simp only [List.all_cons, List.all_nil, Bool.and_true]
    rw [intersection_matches _ v (by simp), intersection_matches _ v (by simp)]
    simp only [List.all_cons, List.all_nil, Bool.and_true]
    exact (Bool.and_assoc _ _ _)
  · have hab : (Union [a, b]).WF = true := union_WF _ (wf2 a b ha hb)
    have hbc : (Union [b, c]).WF = true := union_WF _ (wf2 b c hb hc)
    rw [union_matches _ v (wf2 _ c hab hc), union_matches _ v (wf2 a _ ha hbc)]
    simp only [List.any_cons, List.any_nil, Bool.or_false]
    rw [union_matches _ v (wf2 a b ha hb), union_matches _ v (wf2 b c hb hc)]
    simp only [List.any_cons, List.any_nil, Bool.or_false]
    exact (Bool.or_assoc _ _ _)

/-- **C7** witness at concrete well-formed constraints. -/
theorem c7_commutative_associative_witness :
    Constraint.WF (.rangeC ⟨some v100, some v300, true, false⟩) = true ∧
      Constraint.WF (.version v200) = true ∧
      Constraint.WF (.rangeC ⟨some v200, some v300, false, true⟩) = true ∧
      ((Intersection [.rangeC ⟨some v100, some v300, true, false⟩,
            .version v200]).matches v200 =
          (Intersection [.version v200,
            .rangeC ⟨some v100, some v300, true, false⟩]).matches v200 ∧
        (Union [.rangeC ⟨some v100, some v300, true, false⟩,
            .version v200]).matches v200 =
          (Union [.version v200,
            .rangeC ⟨some v100, some v300, true, false⟩]).matches v200 ∧
        (Intersection [Intersection [.rangeC ⟨some v100, some v300, true, false⟩,
            .version v200], .rangeC ⟨some v200, some v300, false, true⟩]).matches
            v200 =
          (Intersection [.rangeC ⟨some v100, some v300, true, false⟩,
            Intersection [.version v200,
              .rangeC ⟨some v200, some v300, false, true⟩]]).matches v200 ∧
        (Union [Union [.rangeC ⟨some v100, some v300, true, false⟩,
            .version v200], .rangeC ⟨some v200, some v300, false, true⟩]).matches
            v200 =
          (Union [.rangeC ⟨some v100, some v300, true, false⟩,
            Union [.version v200,
              .rangeC ⟨some v200, some v300, false, true⟩]]).matches v200) :=
  ⟨by decide, by decide, by decide,
    c7_commutative_associative _ _ _ v200 (by decide) (by decide) (by decide)⟩

/-- **C10.**  For inputs drawn from the package's five constraint variants
— all the closed `Constraint` interface admits — the
`panic("unknown constraint type")` branches of the preliminary type
switches in `Intersection` and `Union` are unreachable: over such inputs
the raw-interface passes never reach their `.error` arm and compute exactly
the pure passes, so both functions (total Lean functions) always return a
value. -/
theorem c10_unknown_type_panics_unreachable :
    ∀ cg : List Constraint,
      intersectionPassGo (cg.map .known) = .ok (collectRealI cg) ∧
        unionPassGo (cg.map .known) = .ok (collectRealU cg) := by
  intro cg
  induction cg with
  | nil => exact ⟨rfl, rfl⟩
  | cons c rest ih =>
    obtain ⟨ih1, ih2⟩ := ih
    constructor
    · cases c <;> simp [intersectionPassGo, collectRealI, ih1] <;>
        cases collectRealI rest <;> rfl
    · cases c <;> simp [unionPassGo, collectRealU, ih2] <;>
        cases collectRealU rest <;> rfl

end Semver
